import Mathlib

/-!
Shallow embedding of the vizalign alignment core (`makeMatrix`, `globalAlign`,
`findIndelsSubstitutions` from the JS source) together with theorems about it.

Modeling conventions:
* JS strings are `List Char`; `charCodeAt` is the character's code point.
* JS `Int32Array`s are total maps `Nat → Int` (initially zero) updated
  functionally.  Arithmetic is exact: all values reached in this development
  stay far below 2^31, where JS doubles and `Int32Array` stores are exact.
* JS string indexing out of range yields `undefined`; aligned characters are
  therefore `Option Char`, with `none` playing `undefined`, and `join` drops
  `none` just as JS `join` renders `undefined` as the empty string.
* JS exceptions are an explicit error type; the unbounded traceback `while`
  loop runs on fuel, with a dedicated error for exhaustion (the fuel passed by
  `globalAlign` is sufficient for every run of the JS loop that terminates).
-/

namespace VizAlign

/-- Functional update of an integer table (one `Int32Array` store). -/
def upd (t : Nat → Int) (k : Nat) (v : Int) : Nat → Int :=
  fun k' => if k' = k then v else t k'

/-- Flat index into a `(maxI + 1) × (maxJ + 1)` score/pointer plane:
`idx(i, j) = i * (maxJ + 1) + j`. -/
def idxF (maxJ i j : Nat) : Nat := i * (maxJ + 1) + j

/-- `charCodeAt`: code point of the character at `k`.  Every use in the filling
loops is in range; the default is never the value actually read there. -/
def code (s : List Char) (k : Nat) : Nat :=
  ((s.get? k).map Char.toNat).getD 0

/-- JS string indexing `s[k]` with a possibly negative index: out of range
yields `undefined`, modeled as `none`. -/
def jsCharAt (s : List Char) (k : Int) : Option Char :=
  if k < 0 then none else s.get? k.toNat

/-- Traceback pointer tag for the M plane. -/
def MARRAY : Int := 1

/-- Traceback pointer tag for the I plane (gap in the aligned reference). -/
def IARRAY : Int := 2

/-- Traceback pointer tag for the J plane (gap in the aligned read). -/
def JARRAY : Int := 3

/-- Scoring-matrix side length (`matSize` in the source). -/
def matSize : Nat := 256

/-- Code points of the canonical nucleotides A, T, C, G. -/
def nucCodes : List Nat := [65, 84, 67, 71]

/-- Code point of N. -/
def nCode : Nat := 78

/-- `makeMatrix`: a 256×256 scoring table built by the source's three fill
loops over an all-zero array. -/
def makeMatrix (matchScore mismatchScore nMismatchScore nMatchScore : Int) :
    Nat → Int :=
  let m0 : Nat → Int := fun _ => 0
  let m1 := nucCodes.foldl (fun m code1 =>
    nucCodes.foldl (fun m code2 =>
      upd m (code1 * matSize + code2)
        (if code1 = code2 then matchScore else mismatchScore)) m) m0
  let m2 := nucCodes.foldl (fun m c =>
    upd (upd m (c * matSize + nCode) nMismatchScore)
      (nCode * matSize + c) nMismatchScore) m1
  upd m2 (nCode * matSize + nCode) nMatchScore

/-- The scoring matrix with the source's default parameters
(match 5, mismatch −4, N-mismatch −2, N-match −1). -/
def defaultMatrix : Nat → Int := makeMatrix 5 (-4) (-2) (-1)

/-- The six score and pointer planes of `globalAlign`. -/
structure AlignState where
  mScore : Nat → Int
  iScore : Nat → Int
  jScore : Nat → Int
  mPointer : Nat → Int
  iPointer : Nat → Int
  jPointer : Nat → Int

/-- The nested two-level comparison used by `globalAlign`, both to fill a cell
of the M plane from the three `(i−1, j−1)` candidates and to select the plane
at which traceback starts.  Returns the chosen value and plane tag. -/
def pickM (mVal iVal jVal : Int) : Int × Int :=
  if mVal > jVal then
    if mVal > iVal then (mVal, MARRAY) else (iVal, IARRAY)
  else
    if jVal > iVal then (jVal, JARRAY) else (iVal, IARRAY)

/-- First M init loop: `M[0, j] = minScore` with pointer `IARRAY`. -/
def initMRow (maxJ : Nat) (minScore : Int) (st : AlignState) (j : Nat) : AlignState :=
  { st with mScore := upd st.mScore (idxF maxJ 0 j) minScore,
            mPointer := upd st.mPointer (idxF maxJ 0 j) IARRAY }

/-- Second M init loop: `M[i, 0] = minScore` with pointer `JARRAY`. -/
def initMCol (maxJ : Nat) (minScore : Int) (st : AlignState) (i : Nat) : AlignState :=
  { st with mScore := upd st.mScore (idxF maxJ i 0) minScore,
            mPointer := upd st.mPointer (idxF maxJ i 0) JARRAY }

/-- First I init loop: `I[0, j] = gapExtend * j + incentive[0]` with pointer
`IARRAY` (the loop variable is named `i` in the source but ranges to
`maxJ`, indexing columns of row 0). -/
def initIRow (maxJ : Nat) (gapExtend inc0 : Int) (st : AlignState) (i : Nat) :
    AlignState :=
  { st with iScore := upd st.iScore (idxF maxJ 0 i) (gapExtend * (i : Int) + inc0),
            iPointer := upd st.iPointer (idxF maxJ 0 i) IARRAY }

/-- Second I init loop: `I[i, 0] = minScore`. -/
def initICol (maxJ : Nat) (minScore : Int) (st : AlignState) (i : Nat) : AlignState :=
  { st with iScore := upd st.iScore (idxF maxJ i 0) minScore }

/-- First J init loop: `J[i, 0] = gapExtend * i + incentive[0]` with pointer
`JARRAY`. -/
def initJCol (maxJ : Nat) (gapExtend inc0 : Int) (st : AlignState) (i : Nat) :
    AlignState :=
  { st with jScore := upd st.jScore (idxF maxJ i 0) (gapExtend * (i : Int) + inc0),
            jPointer := upd st.jPointer (idxF maxJ i 0) JARRAY }

/-- Second J init loop: `J[0, j] = minScore`. -/
def initJRow (maxJ : Nat) (minScore : Int) (st : AlignState) (j : Nat) : AlignState :=
  { st with jScore := upd st.jScore (idxF maxJ 0 j) minScore }

/-- Boundary initialization of the six planes (the init loops of the source,
in source order). -/
def initTables (maxI maxJ : Nat) (minScore gapExtend : Int) (inc : List Int) :
    AlignState :=
  let z : Nat → Int := fun _ => 0
  let st0 : AlignState := ⟨z, z, z, z, z, z⟩
  let st1 := (List.range' 1 maxJ).foldl (initMRow maxJ minScore) st0
  let st2 := (List.range' 1 maxI).foldl (initMCol maxJ minScore) st1
  let st3 := { st2 with mScore := upd st2.mScore (idxF maxJ 0 0) 0,
                        mPointer := upd st2.mPointer (idxF maxJ 0 0) 0 }
  let st4 := (List.range' 1 maxJ).foldl (initIRow maxJ gapExtend (inc.getD 0 0)) st3
  let st5 := (List.range (maxI + 1)).foldl (initICol maxJ minScore) st4
  let st6 := (List.range' 1 maxI).foldl (initJCol maxJ gapExtend (inc.getD 0 0)) st5
  (List.range (maxJ + 1)).foldl (initJRow maxJ minScore) st6

/-- One cell of the dynamic program.  The three copies of this block in the
source differ only in the penalty used on the open transition into the I and
J planes (`gapOpen` in the interior, `gapExtend` in the last row and last
column); `iOpenPen`/`jOpenPen` are those penalties, and `ci`/`cj` the code
points of `seqI[i−1]`/`seqJ[j−1]`. -/
def fillCell (matrix : Nat → Int) (inc : List Int) (gapExtend iOpenPen jOpenPen : Int)
    (maxJ ci cj : Nat) (st : AlignState) (i j : Nat) : AlignState :=
  let p := idxF maxJ i j
  let iFromMVal := iOpenPen + st.mScore (idxF maxJ i (j - 1)) + inc.getD i 0
  let iExtendVal := gapExtend + st.iScore (idxF maxJ i (j - 1)) + inc.getD i 0
  let st1 :=
    if iFromMVal > iExtendVal then
      { st with iScore := upd st.iScore p iFromMVal,
                iPointer := upd st.iPointer p MARRAY }
    else
      { st with iScore := upd st.iScore p iExtendVal,
                iPointer := upd st.iPointer p IARRAY }
  let jFromMVal := jOpenPen + st1.mScore (idxF maxJ (i - 1) j) + inc.getD (i - 1) 0
  let jExtendVal := gapExtend + st1.jScore (idxF maxJ (i - 1) j)
  let st2 :=
    if jFromMVal > jExtendVal then
      { st1 with jScore := upd st1.jScore p jFromMVal,
                 jPointer := upd st1.jPointer p MARRAY }
    else
      { st1 with jScore := upd st1.jScore p jExtendVal,
                 jPointer := upd st1.jPointer p JARRAY }
  let sc := matrix (ci * matSize + cj)
  let mVal := st2.mScore (idxF maxJ (i - 1) (j - 1)) + sc
  let iVal := st2.iScore (idxF maxJ (i - 1) (j - 1)) + sc
  let jVal := st2.jScore (idxF maxJ (i - 1) (j - 1)) + sc
  let r := pickM mVal iVal jVal
  { st2 with mScore := upd st2.mScore p r.1, mPointer := upd st2.mPointer p r.2 }

/-- The three filling passes of `globalAlign`, in source order: interior
cells (`1 ≤ i < maxI`, `1 ≤ j < maxJ`) with `gapOpen` on the open
transitions, then the last column (`j = maxJ`, `1 ≤ i < maxI`) and the last
row (`i = maxI`, `1 ≤ j ≤ maxJ`) with `gapExtend` instead. -/
def fillTables (seqJ seqI : List Char) (matrix : Nat → Int) (inc : List Int)
    (gapOpen gapExtend : Int) (maxI maxJ : Nat) (st : AlignState) : AlignState :=
  let stA := (List.range' 1 (maxI - 1)).foldl (fun st i =>
    (List.range' 1 (maxJ - 1)).foldl (fun st j =>
      fillCell matrix inc gapExtend gapOpen gapOpen maxJ
        (code seqI (i - 1)) (code seqJ (j - 1)) st i j) st) st
  let stB := (List.range' 1 (maxI - 1)).foldl (fun st i =>
    fillCell matrix inc gapExtend gapExtend gapExtend maxJ
      (code seqI (i - 1)) (code seqJ (maxJ - 1)) st i maxJ) stA
  (List.range' 1 maxJ).foldl (fun st j =>
    fillCell matrix inc gapExtend gapExtend gapExtend maxJ
      (code seqI (maxI - 1)) (code seqJ (j - 1)) st maxI j) stB

/-- Errors a `globalAlign` run can end in.  `invalidInput` is the gap-incentive
length check; `internal` is the `Invalid traceback state at i=…, j=…` throw;
`noFuel` models a run of the JS traceback loop that never terminates. -/
inductive AlignError where
  | invalidInput (expected got : Nat)
  | internal (i j : Nat)
  | noFuel
deriving DecidableEq

/-- Result of a successful `globalAlign` run.  The aligned strings are the
joins of the pushed characters (JS `join` drops `undefined` entries, hence the
join of `Option Char` columns by `filterMap id`). -/
structure AlignResult where
  alignedSeqJ : List Char
  alignedSeqI : List Char
  matchPercentage : Rat
deriving DecidableEq

deriving instance DecidableEq for Except

/-- The traceback `while` loop.  Arguments mirror the JS mutable state:
current cell `(currI, currJ)`, current plane, the two push-order column lists,
match count and column count.  One fuel unit per iteration. -/
def traceback (seqJ seqI : List Char) (st : AlignState) (maxJ : Nat) :
    Nat → Nat → Nat → Int → List (Option Char) → List (Option Char) →
    Nat → Nat →
    Except AlignError (List (Option Char) × List (Option Char) × Nat × Nat)
  | fuel, currI, currJ, currMatrix, accJ, accI, matchCount, alignCounter =>
    if currI > 0 ∨ currJ > 0 then
      match fuel with
      | 0 => .error .noFuel
      | fuel + 1 =>
        if currMatrix = MARRAY then
          let currPtr := st.mPointer (idxF maxJ currI currJ)
          let cj := jsCharAt seqJ ((currJ : Int) - 1)
          let ci := jsCharAt seqI ((currI : Int) - 1)
          traceback seqJ seqI st maxJ fuel
            (if currI > 1 then currI - 1 else 0)
            (if currJ > 1 then currJ - 1 else 0)
            currPtr (accJ ++ [cj]) (accI ++ [ci])
            (if cj = ci then matchCount + 1 else matchCount)
            (alignCounter + 1)
        else if currMatrix = JARRAY then
          let currPtr := st.jPointer (idxF maxJ currI currJ)
          let ci := jsCharAt seqI ((currI : Int) - 1)
          traceback seqJ seqI st maxJ fuel
            (if currI > 1 then currI - 1 else 0) currJ
            currPtr (accJ ++ [some '-']) (accI ++ [ci])
            matchCount (alignCounter + 1)
        else if currMatrix = IARRAY then
          let currPtr := st.iPointer (idxF maxJ currI currJ)
          let cj := jsCharAt seqJ ((currJ : Int) - 1)
          traceback seqJ seqI st maxJ fuel
            currI (if currJ > 1 then currJ - 1 else 0)
            currPtr (accJ ++ [cj]) (accI ++ [some '-'])
            matchCount (alignCounter + 1)
        else .error (.internal currI currJ)
    else .ok (accJ, accI, matchCount, alignCounter)

/-- `Math.round(x * 1000) / 1000`, on exact rationals
(`Math.round(y) = ⌊y + 1/2⌋`). -/
def round3 (q : Rat) : Rat := ((⌊q * 1000 + 1 / 2⌋ : Int) : Rat) / 1000

/-- The match percentage `round3 (100 * matchCount / alignCounter)` written
with numerator arithmetic over `Nat` (`round3_spec` below proves the two
forms equal for `alignCounter > 0`); this form evaluates by kernel
reduction, which the `Rat` field operations do not. -/
def matchPct (matchCount alignCounter : Nat) : Rat :=
  mkRat ((200000 * matchCount + alignCounter) / (2 * alignCounter) : Nat) 1000

/-- The six planes of a `globalAlign` run after initialization and the three
filling passes (the state the traceback runs on). -/
def alignTables (seqJ seqI : List Char) (matrix : Nat → Int)
    (gapIncentive : List Int) (gapOpen gapExtend : Int) : AlignState :=
  fillTables seqJ seqI matrix gapIncentive gapOpen gapExtend
    seqI.length seqJ.length
    (initTables seqI.length seqJ.length
      (gapOpen * (seqJ.length : Int) * (seqI.length : Int)) gapExtend gapIncentive)

/-- `globalAlign`: global alignment of read `seqJ` against reference `seqI`
with affine gaps and position-specific gap incentives.  Validates the
incentive length, builds and fills the six planes, selects the traceback
start plane with `pickM`, and runs the traceback. -/
def globalAlign (seqJ seqI : List Char) (matrix : Nat → Int)
    (gapIncentive : List Int) (gapOpen gapExtend : Int) :
    Except AlignError AlignResult :=
  let maxJ := seqJ.length
  let maxI := seqI.length
  if gapIncentive.length ≠ maxI + 1 then
    .error (.invalidInput (maxI + 1) gapIncentive.length)
  else
    let st := alignTables seqJ seqI matrix gapIncentive gapOpen gapExtend
    let corner := idxF maxJ maxI maxJ
    let startMatrix :=
      (pickM (st.mScore corner) (st.iScore corner) (st.jScore corner)).2
    match traceback seqJ seqI st maxJ (2 * (maxI + maxJ) + 4)
        maxI maxJ startMatrix [] [] 0 0 with
    | .error e => .error e
    | .ok (accJ, accI, matchCount, alignCounter) =>
      .ok { alignedSeqJ := accJ.reverse.filterMap id,
            alignedSeqI := accI.reverse.filterMap id,
            matchPercentage :=
              if alignCounter > 0 then matchPct matchCount alignCounter
              else 0 }

/-- `[a, a+1, …, b−1]`: the values visited by a JS `for (i = a; i < b; i++)`
loop over integers. -/
def intRange (a b : Int) : List Int :=
  (List.range (b - a).toNat).map (fun k => a + (k : Int))

/-- Mutable state of the `findIndelsSubstitutions` scan: all output lists
under construction (push order), plus the running reference coordinate `idx`,
the open-insertion and open-deletion markers (`−1` = none, as in the source),
and the current insertion size. -/
structure VState where
  refPositions : List Int
  allSubstitutionPositions : List Int
  substitutionPositions : List Int
  allSubstitutionValues : List (Option Char)
  substitutionValues : List (Option Char)
  allDeletionPositions : List Int
  allDeletionCoordinates : List (Int × Int)
  deletionPositions : List Int
  deletionCoordinates : List (Int × Int)
  deletionSizes : List Int
  startDeletion : Int
  allInsertionPositions : List Int
  allInsertionLeftPositions : List Int
  insertionPositions : List Int
  insertionCoordinates : List (Int × Int)
  insertionSizes : List Nat
  startInsertion : Int
  idx : Nat
  currentInsertionSize : Nat
deriving DecidableEq

/-- The initial scan state. -/
def VState.init : VState :=
  ⟨[], [], [], [], [], [], [], [], [], [], -1, [], [], [], [], [], -1, 0, 0⟩

/-- Closing an open deletion at reference coordinate `endDeletion` (the block
duplicated in the source between the loop body and the trailing cleanup):
record the positions and coordinates in the `all` lists, and in the windowed
lists if the half-open interval intersects the inclusion set. -/
def closeDeletion (includeIndx : List Int) (st : VState) (endDeletion : Int) :
    VState :=
  let st2 :=
    { st with
      allDeletionPositions :=
        st.allDeletionPositions ++ intRange st.startDeletion endDeletion,
      allDeletionCoordinates :=
        st.allDeletionCoordinates ++ [(st.startDeletion, endDeletion)] }
  let inWindow :=
    (intRange st.startDeletion endDeletion).any fun i => decide (i ∈ includeIndx)
  let st3 :=
    if inWindow then
      { st2 with
        deletionPositions :=
          st2.deletionPositions ++ intRange st.startDeletion endDeletion,
        deletionCoordinates :=
          st2.deletionCoordinates ++ [(st.startDeletion, endDeletion)],
        deletionSizes :=
          st2.deletionSizes ++ [endDeletion - st.startDeletion] }
    else st2
  { st3 with startDeletion := -1 }

/-- First section of the `findIndelsSubstitutions` loop body: the
reference-character branch (substitutions, insertion bookkeeping,
`refPositions`, `idx`).  JS out-of-range string indexing yields
`undefined`, so the two characters are read as `Option Char` and compared
as the source compares them (`undefined` differs from every character). -/
def findStepRef (readSeqAl refSeqAl : List Char) (includeIndx : List Int)
    (st : VState) (idxC : Nat) : VState :=
  let c := refSeqAl.get? idxC
  let r := readSeqAl.get? idxC
  if c ≠ some '-' then
      let stA := { st with refPositions := st.refPositions ++ [(st.idx : Int)] }
      let stB :=
        if c ≠ r ∧ r ≠ some '-' ∧ r ≠ some 'N' then
          let stB0 :=
            { stA with
              allSubstitutionPositions :=
                stA.allSubstitutionPositions ++ [(st.idx : Int)],
              allSubstitutionValues := stA.allSubstitutionValues ++ [r] }
          if (st.idx : Int) ∈ includeIndx then
            { stB0 with
              substitutionPositions :=
                stB0.substitutionPositions ++ [(st.idx : Int)],
              substitutionValues := stB0.substitutionValues ++ [r] }
          else stB0
        else stA
      let stC :=
        if st.startInsertion ≠ -1 then
          let stC0 :=
            { stB with
              allInsertionLeftPositions :=
                stB.allInsertionLeftPositions ++ [st.startInsertion],
              allInsertionPositions :=
                stB.allInsertionPositions ++ [st.startInsertion, (st.idx : Int)] }
          let stC1 :=
            if st.startInsertion ∈ includeIndx ∧ (st.idx : Int) ∈ includeIndx then
              { stC0 with
                insertionCoordinates :=
                  stC0.insertionCoordinates ++ [(st.startInsertion, (st.idx : Int))],
                insertionPositions :=
                  stC0.insertionPositions ++ [st.startInsertion, (st.idx : Int)],
                insertionSizes :=
                  stC0.insertionSizes ++ [st.currentInsertionSize] }
            else stC0
          { stC1 with startInsertion := -1 }
        else stB
      { stC with currentInsertionSize := 0, idx := st.idx + 1 }
    else
      let stA :=
        { st with
          refPositions := st.refPositions ++
            [if st.idx = 0 then (-1 : Int) else -(st.idx : Int)] }
      let stB :=
        if st.idx > 0 ∧ st.startInsertion = -1 then
          { stA with startInsertion := (st.idx : Int) - 1 }
        else stA
      { stB with currentInsertionSize := stB.currentInsertionSize + 1 }

/-- Second section of the `findIndelsSubstitutions` loop body: the deletion
tracking, run on the state the first section produced. -/
def findStepDel (readSeqAl : List Char) (includeIndx : List Int)
    (st1 : VState) (idxC : Nat) : VState :=
  let r := readSeqAl.get? idxC
  if r = some '-' ∧ st1.startDeletion = -1 then
    { st1 with
      startDeletion := if idxC - 1 > 0 then st1.refPositions.getD idxC 0 else 0 }
  else if r ≠ some '-' ∧ st1.startDeletion ≠ -1 then
    closeDeletion includeIndx st1 (st1.refPositions.getD idxC 0)
  else st1

/-- One column of the `findIndelsSubstitutions` scan: the reference-side
section followed by the deletion section. -/
def findStep (readSeqAl refSeqAl : List Char) (includeIndx : List Int)
    (st : VState) (idxC : Nat) : VState :=
  findStepDel readSeqAl includeIndx
    (findStepRef readSeqAl refSeqAl includeIndx st idxC) idxC

/-- The result object of `findIndelsSubstitutions`. -/
structure VReport where
  allInsertionPositions : List Int
  allInsertionLeftPositions : List Int
  insertionPositions : List Int
  insertionCoordinates : List (Int × Int)
  insertionSizes : List Nat
  insertionN : Nat
  allDeletionPositions : List Int
  allDeletionCoordinates : List (Int × Int)
  deletionPositions : List Int
  deletionCoordinates : List (Int × Int)
  deletionSizes : List Int
  deletionN : Int
  allSubstitutionPositions : List Int
  substitutionPositions : List Int
  allSubstitutionValues : List (Option Char)
  substitutionValues : List (Option Char)
  substitutionN : Nat
  refPositions : List Int
deriving DecidableEq

/-- `findIndelsSubstitutions`: scan the aligned pair column by column,
close a deletion still open after the last column against
`refPositions[seqLen − 1]`, and package the report with the three totals. -/
def findIndelsSubstitutions (readSeqAl refSeqAl : List Char)
    (includeIndx : List Int) : VReport :=
  let seqLen := refSeqAl.length
  let st := (List.range seqLen).foldl (findStep readSeqAl refSeqAl includeIndx)
    VState.init
  let st :=
    if st.startDeletion ≠ -1 then
      closeDeletion includeIndx st (st.refPositions.getD (seqLen - 1) 0)
    else st
  { allInsertionPositions := st.allInsertionPositions
    allInsertionLeftPositions := st.allInsertionLeftPositions
    insertionPositions := st.insertionPositions
    insertionCoordinates := st.insertionCoordinates
    insertionSizes := st.insertionSizes
    insertionN := st.insertionSizes.sum
    allDeletionPositions := st.allDeletionPositions
    allDeletionCoordinates := st.allDeletionCoordinates
    deletionPositions := st.deletionPositions
    deletionCoordinates := st.deletionCoordinates
    deletionSizes := st.deletionSizes
    deletionN := st.deletionSizes.sum
    allSubstitutionPositions := st.allSubstitutionPositions
    substitutionPositions := st.substitutionPositions
    allSubstitutionValues := st.allSubstitutionValues
    substitutionValues := st.substitutionValues
    substitutionN := st.substitutionPositions.length
    refPositions := st.refPositions }

/-- Removal of the gap characters from an aligned string. -/
def degap (s : List Char) : List Char := s.filter (fun c => decide (c ≠ '-'))

/-- The six insertion outputs of a variant report, as a tuple. -/
def insOutputs (r : VReport) :
    List Int × List Int × List Int × List (Int × Int) × List Nat × Nat :=
  (r.allInsertionPositions, r.allInsertionLeftPositions, r.insertionPositions,
   r.insertionCoordinates, r.insertionSizes, r.insertionN)

/-- Number of aligned columns among the first `t` that carry two distinct
non-gap characters with the read character not `N` (the columns the spec
calls substitutions). -/
def substCount (readAl refAl : List Char) (t : Nat) : Nat :=
  ((List.range t).filter (fun k =>
    decide (refAl.get? k ≠ some '-' ∧ readAl.get? k ≠ some '-' ∧
      refAl.get? k ≠ readAl.get? k ∧ readAl.get? k ≠ some 'N'))).length

/-- Number of gap characters among the first `t` entries of an aligned
string. -/
def gapCount (s : List Char) (t : Nat) : Nat :=
  ((List.range t).filter (fun k => decide (s.get? k = some '-'))).length

/-- Number of non-gap characters among the first `t` entries of an aligned
string (the reference coordinate reached after `t` columns). -/
def baseCount (s : List Char) (t : Nat) : Nat :=
  ((List.range t).filter (fun k => decide (s.get? k ≠ some '-'))).length

/-- The insertion outputs read directly off a scan state. -/
def insOutputsState (st : VState) :
    List Int × List Int × List Int × List (Int × Int) × List Nat × Nat :=
  (st.allInsertionPositions, st.allInsertionLeftPositions, st.insertionPositions,
   st.insertionCoordinates, st.insertionSizes, st.insertionSizes.sum)

/-- Simulation relation between two scan states: same reference coordinate,
same open-run marker, same five insertion lists, and either the same current
run size, or both scans at coordinate 0 with no run open (where the size can
never be published). -/
def insSim (st st' : VState) : Prop :=
  st.idx = st'.idx ∧ st.startInsertion = st'.startInsertion ∧
  st.allInsertionPositions = st'.allInsertionPositions ∧
  st.allInsertionLeftPositions = st'.allInsertionLeftPositions ∧
  st.insertionPositions = st'.insertionPositions ∧
  st.insertionCoordinates = st'.insertionCoordinates ∧
  st.insertionSizes = st'.insertionSizes ∧
  (st.currentInsertionSize = st'.currentInsertionSize ∨
    (st.idx = 0 ∧ st.startInsertion = -1))

/-- An insertion run is open after column `t − 1` iff that column exists and
carries a reference gap. -/
def inRun (refAl : List Char) (t : Nat) : Prop :=
  1 ≤ t ∧ refAl.get? (t - 1) = some '-'

/-- A deletion is open after column `t − 1` iff that column exists and
carries a read gap. -/
def inDel (readAl : List Char) (t : Nat) : Prop :=
  1 ≤ t ∧ readAl.get? (t - 1) = some '-'

/-- Invariant of the `findIndelsSubstitutions` scan after `t` columns, for an
aligned pair with a non-degenerate edge structure: the reference coordinate
is the number of reference bases seen; an open insertion run carries the
coordinate left of the run and the published plus pending sizes account for
every reference gap; an open deletion carries a start coordinate below the
current one whose eventual size closes the read-gap account; the published
substitution count matches the substitution columns seen. -/
def ScanInv (readAl refAl : List Char) (t : Nat) (st : VState) : Prop :=
  st.refPositions.length = t ∧
  st.idx = baseCount refAl t ∧
  (inRun refAl t → st.startInsertion = (st.idx : Int) - 1 ∧ 1 ≤ st.idx ∧
    st.insertionSizes.sum + st.currentInsertionSize = gapCount refAl t) ∧
  (¬inRun refAl t → st.startInsertion = -1 ∧ st.currentInsertionSize = 0 ∧
    st.insertionSizes.sum = gapCount refAl t) ∧
  (inDel readAl t → 0 ≤ st.startDeletion ∧ st.startDeletion < (st.idx : Int) ∧
    st.startDeletion + (gapCount readAl t : Int)
      = st.deletionSizes.sum + (st.idx : Int)) ∧
  (¬inDel readAl t → st.startDeletion = -1 ∧
    st.deletionSizes.sum = (gapCount readAl t : Int)) ∧
  st.substitutionPositions.length = substCount readAl refAl t

/-! ## Supporting lemmas -/

/-- `matchPct` computes exactly the source's
`Math.round((100 * matchCount / alignCounter) * 1000) / 1000`. -/
theorem round3_spec (mc cnt : Nat) (h : 0 < cnt) :
    matchPct mc cnt = round3 (100 * (mc : Rat) / (cnt : Rat)) := by
  unfold matchPct round3
  have hc : ((cnt : Rat)) ≠ 0 := Nat.cast_ne_zero.mpr h.ne'
  have h2 : (100 * (mc : Rat) / (cnt : Rat)) * 1000 + 1 / 2
      = (((200000 * mc + cnt : Nat) : Int) : Rat) / ((2 * cnt : Nat) : Rat) := by
    field_simp
    ring
  rw [h2, Rat.floor_intCast_div_natCast]
  rw [Rat.mkRat_eq_divInt, Rat.divInt_eq_div]
  have h3 : ((((200000 * mc + cnt) / (2 * cnt) : Nat)) : Int)
      = ((200000 * mc + cnt : Nat) : Int) / ((2 * cnt : Nat) : Int) := Int.ofNat_ediv _ _
  rw [h3]
  push_cast
  ring

theorem jsCharAt_nat (s : List Char) (j : Nat) :
    jsCharAt s ((j : Int) - 1) = if j = 0 then none else s.get? (j - 1) := by
  cases j with
  | zero => simp [jsCharAt]
  | succ n => simp [jsCharAt]

theorem clamp_eq (n : Nat) : (if n > 1 then n - 1 else 0) = n - 1 := by
  split <;> omega

theorem optToList_reverse (o : Option Char) : o.toList.reverse = o.toList := by
  cases o <;> rfl

theorem degap_take_succ (s : List Char) (j : Nat) (hj : j ≠ 0) :
    degap ((s.take j).reverse) =
      degap (s.get? (j - 1)).toList ++ degap ((s.take (j - 1)).reverse) := by
  conv_lhs => rw [show j = (j - 1) + 1 by omega]
  rw [List.take_succ, List.reverse_append, optToList_reverse]
  unfold degap
  rw [List.filter_append]
  simp [List.get?_eq_getElem?]

theorem degap_cons_jside (s : List Char) (j : Nat) (d : List (Option Char))
    (hIH : degap (d.filterMap id) = degap ((s.take (j - 1)).reverse)) :
    degap ((jsCharAt s ((j : Int) - 1) :: d).filterMap id) =
      degap ((s.take j).reverse) := by
  rw [jsCharAt_nat]
  by_cases hj : j = 0
  · simpa [hj, List.filterMap_cons] using hIH
  · rw [if_neg hj, degap_take_succ s j hj]
    cases hg : s.get? (j - 1) with
    | none => simpa using hIH
    | some c =>
      have hfm : (some c :: d).filterMap id = c :: d.filterMap id := by simp
      rw [hfm]
      simp only [Option.toList]
      unfold degap at hIH ⊢
      rw [List.filter_cons, List.filter_cons, List.filter_nil]
      split <;> simpa using hIH

theorem degap_cons_gap (d : List (Option Char)) :
    degap ((some '-' :: d).filterMap id) = degap (d.filterMap id) := by
  have hfm : (some '-' :: d).filterMap id = '-' :: d.filterMap id := by simp
  rw [hfm]
  unfold degap
  rw [List.filter_cons]
  norm_num

theorem jsCharAt_ne_gap (s : List Char) (hs : '-' ∉ s) (k : Int) :
    jsCharAt s k ≠ some '-' := by
  unfold jsCharAt
  split
  · simp
  · intro h
    exact hs (List.get?_mem h)

/-- Every successful traceback run extends the accumulators by columns whose
non-gap characters spell the consumed sequence prefixes backwards, one
column per push on both sides, never with a gap on both sides. -/
theorem traceback_ok_spec (seqJ seqI : List Char) (st : AlignState) (maxJ : Nat)
    (hJ : '-' ∉ seqJ) (hI : '-' ∉ seqI) :
    ∀ (fuel i j : Nat) (cm : Int) (accJ accI : List (Option Char)) (mc cnt : Nat)
      (fJ fI : List (Option Char)) (fmc fcnt : Nat),
      traceback seqJ seqI st maxJ fuel i j cm accJ accI mc cnt = .ok (fJ, fI, fmc, fcnt) →
      ∃ dJ dI : List (Option Char),
        fJ = accJ ++ dJ ∧ fI = accI ++ dI ∧ dJ.length = dI.length ∧
        degap (dJ.filterMap id) = degap ((seqJ.take j).reverse) ∧
        degap (dI.filterMap id) = degap ((seqI.take i).reverse) ∧
        (∀ k, ¬(dJ.getD k none = some '-' ∧ dI.getD k none = some '-')) := by
  intro fuel
  induction fuel with
  | zero =>
    intro i j cm accJ accI mc cnt fJ fI fmc fcnt h
    rw [traceback] at h
    split at h
    · exact absurd h (by simp)
    · rename_i hc
      simp only [Except.ok.injEq, Prod.mk.injEq] at h
      obtain ⟨h1, h2, _, _⟩ := h
      have hj : j = 0 := by omega
      have hi : i = 0 := by omega
      exact ⟨[], [], by simp [h1], by simp [h2], rfl, by simp [hj, degap],
        by simp [hi, degap], by simp⟩
  | succ f ih =>
    intro i j cm accJ accI mc cnt fJ fI fmc fcnt h
    rw [traceback] at h
    split at h
    case isFalse hc =>
      simp only [Except.ok.injEq, Prod.mk.injEq] at h
      obtain ⟨h1, h2, _, _⟩ := h
      have hj : j = 0 := by omega
      have hi : i = 0 := by omega
      exact ⟨[], [], by simp [h1], by simp [h2], rfl, by simp [hj, degap],
        by simp [hi, degap], by simp⟩
    case isTrue hc =>
      by_cases hm : cm = MARRAY
      · rw [if_pos hm] at h
        rw [clamp_eq, clamp_eq] at h
        obtain ⟨dJ, dI, e1, e2, elen, eJ, eI, endg⟩ := ih _ _ _ _ _ _ _ _ _ _ _ h
        refine ⟨jsCharAt seqJ ((j : Int) - 1) :: dJ, jsCharAt seqI ((i : Int) - 1) :: dI,
          by simpa using e1, by simpa using e2, by simpa using elen,
          degap_cons_jside seqJ j dJ eJ, degap_cons_jside seqI i dI eI, ?_⟩
        intro k
        cases k with
        | zero =>
          intro ⟨hk1, _⟩
          exact jsCharAt_ne_gap seqJ hJ _ (by simpa using hk1)
        | succ n =>
          simpa using endg n
      · by_cases hjar : cm = JARRAY
        · rw [if_neg hm, if_pos hjar] at h
          rw [clamp_eq] at h
          obtain ⟨dJ, dI, e1, e2, elen, eJ, eI, endg⟩ := ih _ _ _ _ _ _ _ _ _ _ _ h
          refine ⟨some '-' :: dJ, jsCharAt seqI ((i : Int) - 1) :: dI,
            by simpa using e1, by simpa using e2, by simpa using elen,
            by rw [degap_cons_gap]; exact eJ, degap_cons_jside seqI i dI eI, ?_⟩
          intro k
          cases k with
          | zero =>
            intro ⟨_, hk2⟩
            exact jsCharAt_ne_gap seqI hI _ (by simpa using hk2)
          | succ n =>
            simpa using endg n
        · by_cases hiar : cm = IARRAY
          · rw [if_neg hm, if_neg hjar, if_pos hiar] at h
            rw [clamp_eq] at h
            obtain ⟨dJ, dI, e1, e2, elen, eJ, eI, endg⟩ := ih _ _ _ _ _ _ _ _ _ _ _ h
            refine ⟨jsCharAt seqJ ((j : Int) - 1) :: dJ, some '-' :: dI,
              by simpa using e1, by simpa using e2, by simpa using elen,
              degap_cons_jside seqJ j dJ eJ, by rw [degap_cons_gap]; exact eI, ?_⟩
            intro k
            cases k with
            | zero =>
              intro ⟨hk1, _⟩
              exact jsCharAt_ne_gap seqJ hJ _ (by simpa using hk1)
            | succ n =>
              simpa using endg n
          · rw [if_neg hm, if_neg hjar, if_neg hiar] at h
            exact absurd h (by simp)

theorem nodouble_reverse (a b : List (Option Char)) (hlen : a.length = b.length)
    (h : ∀ k, ¬(a.getD k none = some '-' ∧ b.getD k none = some '-')) :
    ∀ k, ¬(a.reverse.getD k none = some '-' ∧ b.reverse.getD k none = some '-') := by
  intro k ⟨h1, h2⟩
  by_cases hk : k < a.length
  · have e1 : a.reverse[k]? = a[a.length - 1 - k]? :=
      List.getElem?_reverse' k (a.length - 1 - k) (by omega)
    have e2 : b.reverse[k]? = b[b.length - 1 - k]? :=
      List.getElem?_reverse' k (b.length - 1 - k) (by omega)
    apply h (a.length - 1 - k)
    constructor
    · rw [List.getD_eq_getElem?_getD, ← e1, ← List.getD_eq_getElem?_getD]
      exact h1
    · rw [List.getD_eq_getElem?_getD, hlen, ← e2, ← List.getD_eq_getElem?_getD]
      exact h2
  · have : a.reverse.getD k none = none := by
      rw [List.getD_eq_getElem?_getD, List.getElem?_eq_none (by simpa using by omega)]
      rfl
    rw [this] at h1
    exact absurd h1 (by simp)

/-! ## Claim theorems -/

/-- Claim C7 (confirmed): `makeMatrix` fills exactly the cells over
`{A, T, C, G, N}` — match score on equal canonical bases, mismatch score on
distinct canonical bases, N-mismatch score when exactly one side is `N`,
N-match score at `(N, N)` — and every other byte pair of the 256×256 table
is `0`, indexed by raw byte code. -/
theorem makeMatrix_spec (ms mm nm nn : Int) (a b : Nat) (ha : a < 256) (hb : b < 256) :
    makeMatrix ms mm nm nn (a * matSize + b) =
      if a ∈ nucCodes ∧ b ∈ nucCodes then (if a = b then ms else mm)
      else if (a ∈ nucCodes ∧ b = nCode) ∨ (a = nCode ∧ b ∈ nucCodes) then nm
      else if a = nCode ∧ b = nCode then nn
      else 0 := by
  have ha' : a = 65 ∨ a = 84 ∨ a = 67 ∨ a = 71 ∨ a = 78 ∨
      (a ≠ 65 ∧ a ≠ 84 ∧ a ≠ 67 ∧ a ≠ 71 ∧ a ≠ 78) := by omega
  have hb' : b = 65 ∨ b = 84 ∨ b = 67 ∨ b = 71 ∨ b = 78 ∨
      (b ≠ 65 ∧ b ≠ 84 ∧ b ≠ 67 ∧ b ≠ 71 ∧ b ≠ 78) := by omega
  rcases ha' with rfl | rfl | rfl | rfl | rfl | ⟨h1, h2, h3, h4, h5⟩ <;>
    rcases hb' with rfl | rfl | rfl | rfl | rfl | ⟨g1, g2, g3, g4, g5⟩ <;>
    simp [makeMatrix, nucCodes, nCode, matSize, upd, List.foldl] <;>
    (repeat rw [if_neg (by omega)]) <;>
    simp_all

theorem makeMatrix_spec_witness :
    (65 : Nat) < 256 ∧ (84 : Nat) < 256 ∧
    makeMatrix 5 (-4) (-2) (-1) (65 * matSize + 84) =
      (if (65 : Nat) ∈ nucCodes ∧ (84 : Nat) ∈ nucCodes
       then (if (65 : Nat) = 84 then (5 : Int) else -4)
       else if ((65 : Nat) ∈ nucCodes ∧ (84 : Nat) = nCode) ∨
         ((65 : Nat) = nCode ∧ (84 : Nat) ∈ nucCodes) then -2
       else if (65 : Nat) = nCode ∧ (84 : Nat) = nCode then -1
       else 0) :=
  ⟨by decide, by decide, makeMatrix_spec 5 (-4) (-2) (-1) 65 84 (by decide) (by decide)⟩

/-- Claim C3 (confirmed): the nested comparison shared by the M-plane fill
and the traceback start (`pickM`) returns the maximum of the three
candidates and picks M only when it strictly beats both J (first test) and
I (second test), J only when M does not strictly beat J and J strictly
beats I, and I otherwise — so every tie resolves to the later-listed plane
in the preference order M, J, I. -/
theorem pickM_spec (m i j : Int) :
    (pickM m i j).1 = max m (max i j) ∧
    ((pickM m i j).2 = MARRAY ↔ m > j ∧ m > i) ∧
    ((pickM m i j).2 = JARRAY ↔ ¬m > j ∧ j > i) ∧
    ((pickM m i j).2 = IARRAY ↔ (m > j ∧ ¬m > i) ∨ (¬m > j ∧ ¬j > i)) ∧
    (m = j → (pickM m i j).2 ≠ MARRAY) ∧
    (m = i ∧ i = j → (pickM m i j).2 = IARRAY) := by
  unfold pickM MARRAY IARRAY JARRAY
  split_ifs <;> simp <;> omega

theorem pickM_spec_witness :
    (pickM 4 4 4).1 = max 4 (max 4 4) ∧ (pickM 4 4 4).2 = IARRAY :=
  ⟨(pickM_spec 4 4 4).1, (pickM_spec 4 4 4).2.2.2.2.2 ⟨rfl, rfl⟩⟩

/-- Claim C1 (counterexample): on the valid input read `A`, reference `A`,
incentive `[7, 0]` (default matrix and gap penalties), `globalAlign`
returns normally but the two aligned strings have different lengths — the
traceback passes through the M plane at row 0, reads `seqI[-1]`
(`undefined`), and the join drops that column from one output only. -/
theorem globalAlign_length_counterexample :
    globalAlign ['A'] ['A'] defaultMatrix [7, 0] (-1) (-1) =
      .ok ⟨['A', '-'], ['A'], 0⟩ ∧
    (['A', '-'] : List Char).length ≠ (['A'] : List Char).length := by decide

/-- Claim C1 (corrected): whenever `globalAlign` returns normally on
sequences without gap characters, deleting the gap characters from
`alignedSeqI` yields exactly the reference and deleting them from
`alignedSeqJ` yields exactly the read; moreover the outputs are the joins
of two emitted column lists of equal length in which no column carries the
gap character on both sides.  (As stated the claim is false: the aligned
strings themselves can differ in length, `globalAlign_length_counterexample`.) -/
theorem globalAlign_ok_invariants (seqJ seqI : List Char) (matrix : Nat → Int)
    (gapIncentive : List Int) (gapOpen gapExtend : Int)
    (hJ : '-' ∉ seqJ) (hI : '-' ∉ seqI) (r : AlignResult)
    (h : globalAlign seqJ seqI matrix gapIncentive gapOpen gapExtend = .ok r) :
    degap r.alignedSeqI = seqI ∧ degap r.alignedSeqJ = seqJ ∧
    ∃ colsJ colsI : List (Option Char),
      r.alignedSeqJ = colsJ.filterMap id ∧ r.alignedSeqI = colsI.filterMap id ∧
      colsJ.length = colsI.length ∧
      ∀ k, ¬(colsJ.getD k none = some '-' ∧ colsI.getD k none = some '-') := by
  rw [globalAlign] at h
  split at h
  · exact absurd h (by simp)
  · simp only [] at h
    split at h
    · exact absurd h (by simp)
    · rename_i accJ accI matchCount alignCounter heq
      obtain ⟨dJ, dI, e1, e2, elen, eJ, eI, endg⟩ :=
        traceback_ok_spec seqJ seqI _ seqJ.length hJ hI _ _ _ _ _ _ _ _ _ _ _ _ heq
      simp only [List.nil_append] at e1 e2
      subst e1 e2
      simp only [Except.ok.injEq] at h
      subst h
      have hdegapJ : degap (accJ.reverse.filterMap id) = seqJ := by
        rw [List.filterMap_reverse]
        unfold degap
        rw [List.filter_reverse]
        have : (accJ.filterMap id).filter (fun c => decide (c ≠ '-'))
            = degap ((seqJ.take seqJ.length).reverse) := eJ
        rw [List.take_length] at this
        unfold degap at this
        rw [List.filter_reverse] at this
        rw [this, List.reverse_reverse]
        exact List.filter_eq_self.mpr (fun a ha => by
          simp only [decide_eq_true_eq]
          intro hcontr
          exact hJ (hcontr ▸ ha))
      have hdegapI : degap (accI.reverse.filterMap id) = seqI := by
        rw [List.filterMap_reverse]
        unfold degap
        rw [List.filter_reverse]
        have : (accI.filterMap id).filter (fun c => decide (c ≠ '-'))
            = degap ((seqI.take seqI.length).reverse) := eI
        rw [List.take_length] at this
        unfold degap at this
        rw [List.filter_reverse] at this
        rw [this, List.reverse_reverse]
        exact List.filter_eq_self.mpr (fun a ha => by
          simp only [decide_eq_true_eq]
          intro hcontr
          exact hI (hcontr ▸ ha))
      refine ⟨hdegapI, hdegapJ, accJ.reverse, accI.reverse, rfl, rfl, by simpa using elen,
        nodouble_reverse accJ accI elen endg⟩

theorem globalAlign_ok_invariants_witness :
    degap (AlignResult.alignedSeqI ⟨['A', 'T'], ['A', 'T'], 100⟩) = ['A', 'T'] ∧
    degap (AlignResult.alignedSeqJ ⟨['A', 'T'], ['A', 'T'], 100⟩) = ['A', 'T'] ∧
    ∃ colsJ colsI : List (Option Char),
      (AlignResult.alignedSeqJ ⟨['A', 'T'], ['A', 'T'], 100⟩) = colsJ.filterMap id ∧
      (AlignResult.alignedSeqI ⟨['A', 'T'], ['A', 'T'], 100⟩) = colsI.filterMap id ∧
      colsJ.length = colsI.length ∧
      ∀ k, ¬(colsJ.getD k none = some '-' ∧ colsI.getD k none = some '-') :=
  globalAlign_ok_invariants ['A', 'T'] ['A', 'T'] defaultMatrix [0, 0, 0] (-1) (-1)
    (by decide) (by decide) ⟨['A', 'T'], ['A', 'T'], 100⟩ (by decide)

/-- Claim C4 (code bug): with the default matrix and gap penalties, read =
reference = `AT` and the non-negative incentive `[0, 1000, 0]` of length
`|reference| + 1`, `globalAlign` does not return the identity alignment at
100% — it reaches the `Invalid traceback state` branch (the M plane's cell
(2,2) points into the I plane, whose (1,1) pointer leads to the dead
boundary cell (1,0)) and throws. -/
theorem globalAlign_identity_incentive_bug :
    globalAlign ['A', 'T'] ['A', 'T'] defaultMatrix [0, 1000, 0] (-1) (-1) =
      .error (.internal 1 0) := by decide

/-- Claim C5 (code bug): with an empty read and reference `A` (incentive
`[0, 0]` of the required length), `globalAlign` reaches the
`Invalid traceback state` branch instead of returning normally; the
both-empty case does return two empty strings and 0%. -/
theorem globalAlign_empty_input_bug :
    globalAlign [] ['A'] defaultMatrix [0, 0] (-1) (-1) = .error (.internal 1 0) ∧
    globalAlign [] [] defaultMatrix [0] (-1) (-1) = .ok ⟨[], [], 0⟩ := by decide



/-- No run of the traceback loop can produce an `invalidInput` error: its
only error outcomes are the `internal` throw and fuel exhaustion. -/
theorem traceback_no_invalid (seqJ seqI : List Char) (st : AlignState) (maxJ : Nat) :
    ∀ (fuel i j : Nat) (cm : Int) (accJ accI : List (Option Char)) (mc cnt : Nat)
      (a b : Nat),
      traceback seqJ seqI st maxJ fuel i j cm accJ accI mc cnt ≠
        .error (.invalidInput a b) := by
  intro fuel
  induction fuel with
  | zero =>
    intro i j cm accJ accI mc cnt a b h
    rw [traceback] at h
    split at h
    · simp at h
    · simp at h
  | succ f ih =>
    intro i j cm accJ accI mc cnt a b h
    rw [traceback] at h
    split at h
    case isTrue hc =>
      by_cases hm : cm = MARRAY
      · rw [if_pos hm] at h
        exact ih _ _ _ _ _ _ _ _ _ h
      · by_cases hjar : cm = JARRAY
        · rw [if_neg hm, if_pos hjar] at h
          exact ih _ _ _ _ _ _ _ _ _ h
        · by_cases hiar : cm = IARRAY
          · rw [if_neg hm, if_neg hjar, if_pos hiar] at h
            exact ih _ _ _ _ _ _ _ _ _ h
          · rw [if_neg hm, if_neg hjar, if_neg hiar] at h
            simp at h
    case isFalse hc =>
      simp at h

/-- Claim C9 (confirmed): `globalAlign` returns the `InvalidInput` error
exactly when the gap-incentive length differs from `|reference| + 1` (the
check is the first thing the function does, before any plane is built), and
with the correct length no `InvalidInput` error can arise from any later
part of the run. -/
theorem invalidInput_spec (seqJ seqI : List Char) (matrix : Nat → Int)
    (gapIncentive : List Int) (gapOpen gapExtend : Int) :
    (globalAlign seqJ seqI matrix gapIncentive gapOpen gapExtend =
        .error (.invalidInput (seqI.length + 1) gapIncentive.length) ↔
      gapIncentive.length ≠ seqI.length + 1) ∧
    (gapIncentive.length = seqI.length + 1 → ∀ a b,
      globalAlign seqJ seqI matrix gapIncentive gapOpen gapExtend ≠
        .error (.invalidInput a b)) := by
  constructor
  · constructor
    · intro h hlen
      rw [globalAlign, if_neg (by simpa using hlen)] at h
      simp only [] at h
      split at h
      · rename_i e heq
        simp only [Except.error.injEq] at h
        exact traceback_no_invalid seqJ seqI _ _ _ _ _ _ _ _ _ _ _ _ (heq.trans (by rw [h]))
      · simp at h
    · intro hlen
      rw [globalAlign, if_pos (by simpa using hlen)]
  · intro hlen a b h
    rw [globalAlign, if_neg (by simpa using hlen)] at h
    simp only [] at h
    split at h
    · rename_i e heq
      simp only [Except.error.injEq] at h
      exact traceback_no_invalid seqJ seqI _ _ _ _ _ _ _ _ _ _ a b (heq.trans (by rw [h]))
    · simp at h

theorem invalidInput_spec_witness :
    globalAlign ['A'] ['A'] defaultMatrix [0] (-1) (-1) = .error (.invalidInput 2 1) :=
  (invalidInput_spec ['A'] ['A'] defaultMatrix [0] (-1) (-1)).1.mpr (by decide)

theorem idxF_eq_iff (maxJ i j i' j' : Nat) (hj : j ≤ maxJ) (hj' : j' ≤ maxJ) :
    idxF maxJ i j = idxF maxJ i' j' ↔ (i = i' ∧ j = j') := by
  unfold idxF
  constructor
  · intro h
    have e1 : (i * (maxJ + 1) + j) % (maxJ + 1) = j := by
      rw [Nat.mul_comm, Nat.mul_add_mod]
      exact Nat.mod_eq_of_lt (by omega)
    have e2 : (i' * (maxJ + 1) + j') % (maxJ + 1) = j' := by
      rw [Nat.mul_comm, Nat.mul_add_mod]
      exact Nat.mod_eq_of_lt (by omega)
    have hjj : j = j' := by rw [← e1, ← e2, h]
    subst hjj
    have hii : i = i' := by
      have := Nat.add_right_cancel h
      exact Nat.eq_of_mul_eq_mul_right (by omega) this
    exact ⟨hii, rfl⟩
  · rintro ⟨rfl, rfl⟩
    rfl

theorem foldl_induction {β α : Type} (f : β → α → β) (P : β → Prop) :
    ∀ (L : List α) (st : β), P st → (∀ st a, a ∈ L → P st → P (f st a)) →
      P (L.foldl f st) := by
  intro L
  induction L with
  | nil => intro st h _; exact h
  | cons a L ih =>
    intro st h hf
    exact ih _ (hf st a (List.mem_cons_self a L) h)
      (fun st b hb => hf st b (List.mem_cons_of_mem _ hb))

-- fillCell write locality: all six tables unchanged away from (i, j)
theorem fillCell_apart (matrix : Nat → Int) (inc : List Int)
    (ge io jo : Int) (maxJ ci cj : Nat) (st : AlignState) (i j : Nat)
    (p : Nat) (hp : p ≠ idxF maxJ i j) :
    (fillCell matrix inc ge io jo maxJ ci cj st i j).mScore p = st.mScore p ∧
    (fillCell matrix inc ge io jo maxJ ci cj st i j).iScore p = st.iScore p ∧
    (fillCell matrix inc ge io jo maxJ ci cj st i j).jScore p = st.jScore p ∧
    (fillCell matrix inc ge io jo maxJ ci cj st i j).mPointer p = st.mPointer p ∧
    (fillCell matrix inc ge io jo maxJ ci cj st i j).iPointer p = st.iPointer p ∧
    (fillCell matrix inc ge io jo maxJ ci cj st i j).jPointer p = st.jPointer p := by
  unfold fillCell
  simp only []
  split_ifs <;> simp [upd, hp]

-- fillCell values at (i, j)
theorem fillCell_at (matrix : Nat → Int) (inc : List Int)
    (ge io jo : Int) (maxJ ci cj : Nat) (st : AlignState) (i j : Nat) :
    (fillCell matrix inc ge io jo maxJ ci cj st i j).iScore (idxF maxJ i j) =
      max (io + st.mScore (idxF maxJ i (j - 1)) + inc.getD i 0)
        (ge + st.iScore (idxF maxJ i (j - 1)) + inc.getD i 0) ∧
    (fillCell matrix inc ge io jo maxJ ci cj st i j).jScore (idxF maxJ i j) =
      max (jo + st.mScore (idxF maxJ (i - 1) j) + inc.getD (i - 1) 0)
        (ge + st.jScore (idxF maxJ (i - 1) j)) := by
  unfold fillCell
  dsimp only
  split_ifs with h1 h2 h2 <;> dsimp only at * <;>
    simp [upd, List.getD_eq_getElem?_getD] at * <;> omega



-- preservation through the last-row fold + equations
theorem lastRowFold_spec (matrix : Nat → Int) (inc : List Int) (ge : Int)
    (maxI maxJ : Nat) (ci : Nat) (cjf : Nat → Nat) (hI : 1 ≤ maxI) :
    ∀ (n : Nat) (st0 : AlignState), n ≤ maxJ →
      (∀ p, (∀ j', 1 ≤ j' → j' ≤ n → p ≠ idxF maxJ maxI j') →
        ((List.range' 1 n).foldl
          (fun st j => fillCell matrix inc ge ge ge maxJ ci (cjf j) st maxI j) st0).mScore p
            = st0.mScore p ∧
        ((List.range' 1 n).foldl
          (fun st j => fillCell matrix inc ge ge ge maxJ ci (cjf j) st maxI j) st0).iScore p
            = st0.iScore p ∧
        ((List.range' 1 n).foldl
          (fun st j => fillCell matrix inc ge ge ge maxJ ci (cjf j) st maxI j) st0).jScore p
            = st0.jScore p) ∧
      (∀ j, 1 ≤ j → j ≤ n →
        ((List.range' 1 n).foldl
          (fun st j => fillCell matrix inc ge ge ge maxJ ci (cjf j) st maxI j) st0).iScore
            (idxF maxJ maxI j) =
          max (ge + ((List.range' 1 n).foldl
              (fun st j => fillCell matrix inc ge ge ge maxJ ci (cjf j) st maxI j) st0).mScore
                (idxF maxJ maxI (j - 1)) + inc.getD maxI 0)
            (ge + ((List.range' 1 n).foldl
              (fun st j => fillCell matrix inc ge ge ge maxJ ci (cjf j) st maxI j) st0).iScore
                (idxF maxJ maxI (j - 1)) + inc.getD maxI 0) ∧
        ((List.range' 1 n).foldl
          (fun st j => fillCell matrix inc ge ge ge maxJ ci (cjf j) st maxI j) st0).jScore
            (idxF maxJ maxI j) =
          max (ge + ((List.range' 1 n).foldl
              (fun st j => fillCell matrix inc ge ge ge maxJ ci (cjf j) st maxI j) st0).mScore
                (idxF maxJ (maxI - 1) j) + inc.getD (maxI - 1) 0)
            (ge + ((List.range' 1 n).foldl
              (fun st j => fillCell matrix inc ge ge ge maxJ ci (cjf j) st maxI j) st0).jScore
                (idxF maxJ (maxI - 1) j))) := by
  intro n
  induction n with
  | zero =>
    intro st0 _
    exact ⟨fun p _ => ⟨rfl, rfl, rfl⟩, fun j h1 h2 => absurd (h1.trans h2) (by omega)⟩
  | succ n ih =>
    intro st0 hn
    rw [List.range'_1_concat, List.foldl_append, List.foldl_cons, List.foldl_nil]
    obtain ⟨pres, eqs⟩ := ih st0 (by omega)
    have hwr : ∀ p, p ≠ idxF maxJ maxI (1 + n) →
        (fillCell matrix inc ge ge ge maxJ ci (cjf (1 + n))
          ((List.range' 1 n).foldl
            (fun st j => fillCell matrix inc ge ge ge maxJ ci (cjf j) st maxI j) st0) maxI
              (1 + n)).mScore p
          = ((List.range' 1 n).foldl
            (fun st j => fillCell matrix inc ge ge ge maxJ ci (cjf j) st maxI j) st0).mScore p ∧
        (fillCell matrix inc ge ge ge maxJ ci (cjf (1 + n))
          ((List.range' 1 n).foldl
            (fun st j => fillCell matrix inc ge ge ge maxJ ci (cjf j) st maxI j) st0) maxI
              (1 + n)).iScore p
          = ((List.range' 1 n).foldl
            (fun st j => fillCell matrix inc ge ge ge maxJ ci (cjf j) st maxI j) st0).iScore p ∧
        (fillCell matrix inc ge ge ge maxJ ci (cjf (1 + n))
          ((List.range' 1 n).foldl
            (fun st j => fillCell matrix inc ge ge ge maxJ ci (cjf j) st maxI j) st0) maxI
              (1 + n)).jScore p
          = ((List.range' 1 n).foldl
            (fun st j => fillCell matrix inc ge ge ge maxJ ci (cjf j) st maxI j) st0).jScore p := by
      intro p hp
      obtain ⟨e1, e2, e3, _, _, _⟩ := fillCell_apart matrix inc ge ge ge maxJ ci (cjf (1 + n)) _
        maxI (1 + n) p hp
      exact ⟨e1, e2, e3⟩
    constructor
    · intro p hp
      have hp1 : p ≠ idxF maxJ maxI (1 + n) := hp (1 + n) (by omega) (by omega)
      obtain ⟨e1, e2, e3⟩ := hwr p hp1
      obtain ⟨f1, f2, f3⟩ := pres p (fun j' hj1 hj2 => hp j' hj1 (by omega))
      exact ⟨e1.trans f1, e2.trans f2, e3.trans f3⟩
    · intro j hj1 hj2
      by_cases hje : j = n + 1
      · subst hje
        have heq : (1 + n) = n + 1 := by omega
        rw [heq] at hwr ⊢
        obtain ⟨v1, v2⟩ := fillCell_at matrix inc ge ge ge maxJ ci (cjf (n + 1))
          ((List.range' 1 n).foldl
            (fun st j => fillCell matrix inc ge ge ge maxJ ci (cjf j) st maxI j) st0) maxI (n + 1)
        have hr1 : idxF maxJ maxI (n + 1 - 1) ≠ idxF maxJ maxI (n + 1) := by
          rw [ne_eq, idxF_eq_iff maxJ _ _ _ _ (by omega) (by omega)]
          omega
        have hr2 : idxF maxJ (maxI - 1) (n + 1) ≠ idxF maxJ maxI (n + 1) := by
          rw [ne_eq, idxF_eq_iff maxJ _ _ _ _ (by omega) (by omega)]
          omega
        obtain ⟨g1, g2, g3⟩ := hwr _ hr1
        obtain ⟨k1, k2, k3⟩ := hwr _ hr2
        constructor
        · rw [v1, g1, g2]
        · rw [v2, k1, k3]
      · have hj2' : j ≤ n := by omega
        have hp1 : idxF maxJ maxI j ≠ idxF maxJ maxI (1 + n) := by
          rw [ne_eq, idxF_eq_iff maxJ _ _ _ _ (by omega) (by omega)]
          omega
        have hp2 : idxF maxJ maxI (j - 1) ≠ idxF maxJ maxI (1 + n) := by
          rw [ne_eq, idxF_eq_iff maxJ _ _ _ _ (by omega) (by omega)]
          omega
        have hp3 : idxF maxJ (maxI - 1) j ≠ idxF maxJ maxI (1 + n) := by
          rw [ne_eq, idxF_eq_iff maxJ _ _ _ _ (by omega) (by omega)]
          omega
        obtain ⟨a1, a2, a3⟩ := hwr _ hp1
        obtain ⟨b1, b2, b3⟩ := hwr _ hp2
        obtain ⟨c1, c2, c3⟩ := hwr _ hp3
        obtain ⟨q1, q2⟩ := eqs j hj1 hj2'
        constructor
        · rw [a2, b1, b2, q1]
        · rw [a3, c1, c3, q2]



theorem lastColFold_spec (matrix : Nat → Int) (inc : List Int) (ge : Int)
    (maxJ : Nat) (cj : Nat) (cif : Nat → Nat) (hJ : 1 ≤ maxJ) :
    ∀ (n : Nat) (st0 : AlignState),
      (∀ p, (∀ i', 1 ≤ i' → i' ≤ n → p ≠ idxF maxJ i' maxJ) →
        ((List.range' 1 n).foldl
          (fun st i => fillCell matrix inc ge ge ge maxJ (cif i) cj st i maxJ) st0).mScore p
            = st0.mScore p ∧
        ((List.range' 1 n).foldl
          (fun st i => fillCell matrix inc ge ge ge maxJ (cif i) cj st i maxJ) st0).iScore p
            = st0.iScore p ∧
        ((List.range' 1 n).foldl
          (fun st i => fillCell matrix inc ge ge ge maxJ (cif i) cj st i maxJ) st0).jScore p
            = st0.jScore p) ∧
      (∀ i, 1 ≤ i → i ≤ n →
        ((List.range' 1 n).foldl
          (fun st i => fillCell matrix inc ge ge ge maxJ (cif i) cj st i maxJ) st0).iScore
            (idxF maxJ i maxJ) =
          max (ge + ((List.range' 1 n).foldl
              (fun st i => fillCell matrix inc ge ge ge maxJ (cif i) cj st i maxJ) st0).mScore
                (idxF maxJ i (maxJ - 1)) + inc.getD i 0)
            (ge + ((List.range' 1 n).foldl
              (fun st i => fillCell matrix inc ge ge ge maxJ (cif i) cj st i maxJ) st0).iScore
                (idxF maxJ i (maxJ - 1)) + inc.getD i 0) ∧
        ((List.range' 1 n).foldl
          (fun st i => fillCell matrix inc ge ge ge maxJ (cif i) cj st i maxJ) st0).jScore
            (idxF maxJ i maxJ) =
          max (ge + ((List.range' 1 n).foldl
              (fun st i => fillCell matrix inc ge ge ge maxJ (cif i) cj st i maxJ) st0).mScore
                (idxF maxJ (i - 1) maxJ) + inc.getD (i - 1) 0)
            (ge + ((List.range' 1 n).foldl
              (fun st i => fillCell matrix inc ge ge ge maxJ (cif i) cj st i maxJ) st0).jScore
                (idxF maxJ (i - 1) maxJ))) := by
  intro n
  induction n with
  | zero =>
    intro st0
    exact ⟨fun p _ => ⟨rfl, rfl, rfl⟩, fun i h1 h2 => absurd (h1.trans h2) (by omega)⟩
  | succ n ih =>
    intro st0
    rw [List.range'_1_concat, List.foldl_append, List.foldl_cons, List.foldl_nil]
    obtain ⟨pres, eqs⟩ := ih st0
    have hwr : ∀ p, p ≠ idxF maxJ (1 + n) maxJ →
        (fillCell matrix inc ge ge ge maxJ (cif (1 + n)) cj
          ((List.range' 1 n).foldl
            (fun st i => fillCell matrix inc ge ge ge maxJ (cif i) cj st i maxJ) st0)
              (1 + n) maxJ).mScore p
          = ((List.range' 1 n).foldl
            (fun st i => fillCell matrix inc ge ge ge maxJ (cif i) cj st i maxJ) st0).mScore p ∧
        (fillCell matrix inc ge ge ge maxJ (cif (1 + n)) cj
          ((List.range' 1 n).foldl
            (fun st i => fillCell matrix inc ge ge ge maxJ (cif i) cj st i maxJ) st0)
              (1 + n) maxJ).iScore p
          = ((List.range' 1 n).foldl
            (fun st i => fillCell matrix inc ge ge ge maxJ (cif i) cj st i maxJ) st0).iScore p ∧
        (fillCell matrix inc ge ge ge maxJ (cif (1 + n)) cj
          ((List.range' 1 n).foldl
            (fun st i => fillCell matrix inc ge ge ge maxJ (cif i) cj st i maxJ) st0)
              (1 + n) maxJ).jScore p
          = ((List.range' 1 n).foldl
            (fun st i => fillCell matrix inc ge ge ge maxJ (cif i) cj st i maxJ) st0).jScore p := by
      intro p hp
      obtain ⟨e1, e2, e3, _, _, _⟩ := fillCell_apart matrix inc ge ge ge maxJ (cif (1 + n)) cj _
        (1 + n) maxJ p hp
      exact ⟨e1, e2, e3⟩
    constructor
    · intro p hp
      have hp1 : p ≠ idxF maxJ (1 + n) maxJ := hp (1 + n) (by omega) (by omega)
      obtain ⟨e1, e2, e3⟩ := hwr p hp1
      obtain ⟨f1, f2, f3⟩ := pres p (fun i' hi1 hi2 => hp i' hi1 (by omega))
      exact ⟨e1.trans f1, e2.trans f2, e3.trans f3⟩
    · intro i hi1 hi2
      by_cases hie : i = n + 1
      · subst hie
        have heq : (1 + n) = n + 1 := by omega
        rw [heq] at hwr ⊢
        obtain ⟨v1, v2⟩ := fillCell_at matrix inc ge ge ge maxJ (cif (n + 1)) cj
          ((List.range' 1 n).foldl
            (fun st i => fillCell matrix inc ge ge ge maxJ (cif i) cj st i maxJ) st0) (n + 1) maxJ
        have hr1 : idxF maxJ (n + 1) (maxJ - 1) ≠ idxF maxJ (n + 1) maxJ := by
          rw [ne_eq, idxF_eq_iff maxJ _ _ _ _ (by omega) (by omega)]
          omega
        have hr2 : idxF maxJ (n + 1 - 1) maxJ ≠ idxF maxJ (n + 1) maxJ := by
          rw [ne_eq, idxF_eq_iff maxJ _ _ _ _ (by omega) (by omega)]
          omega
        obtain ⟨g1, g2, g3⟩ := hwr _ hr1
        obtain ⟨k1, k2, k3⟩ := hwr _ hr2
        constructor
        · rw [v1, g1, g2]
        · rw [v2, k1, k3]
      · have hi2' : i ≤ n := by omega
        have hp1 : idxF maxJ i maxJ ≠ idxF maxJ (1 + n) maxJ := by
          rw [ne_eq, idxF_eq_iff maxJ _ _ _ _ (by omega) (by omega)]
          omega
        have hp2 : idxF maxJ i (maxJ - 1) ≠ idxF maxJ (1 + n) maxJ := by
          rw [ne_eq, idxF_eq_iff maxJ _ _ _ _ (by omega) (by omega)]
          omega
        have hp3 : idxF maxJ (i - 1) maxJ ≠ idxF maxJ (1 + n) maxJ := by
          rw [ne_eq, idxF_eq_iff maxJ _ _ _ _ (by omega) (by omega)]
          omega
        obtain ⟨a1, a2, a3⟩ := hwr _ hp1
        obtain ⟨b1, b2, b3⟩ := hwr _ hp2
        obtain ⟨c1, c2, c3⟩ := hwr _ hp3
        obtain ⟨q1, q2⟩ := eqs i hi1 hi2'
        constructor
        · rw [a2, b1, b2, q1]
        · rw [a3, c1, c3, q2]



theorem mem_range'_one {m s n : Nat} (h : m ∈ List.range' s n) : s ≤ m ∧ m < s + n := by
  rw [List.mem_range'] at h
  obtain ⟨i, hi, rfl⟩ := h
  omega

theorem interiorFold_apart (matrix : Nat → Int) (inc : List Int) (go ge : Int)
    (maxJ : Nat) (cif cjf : Nat → Nat) (mI mJ : Nat) (p : Nat)
    (hp : ∀ i' j', 1 ≤ i' → i' ≤ mI → 1 ≤ j' → j' ≤ mJ → p ≠ idxF maxJ i' j')
    (st0 : AlignState) :
    ((List.range' 1 mI).foldl (fun st i =>
      (List.range' 1 mJ).foldl (fun st j =>
        fillCell matrix inc ge go go maxJ (cif i) (cjf j) st i j) st) st0).mScore p
        = st0.mScore p ∧
    ((List.range' 1 mI).foldl (fun st i =>
      (List.range' 1 mJ).foldl (fun st j =>
        fillCell matrix inc ge go go maxJ (cif i) (cjf j) st i j) st) st0).iScore p
        = st0.iScore p ∧
    ((List.range' 1 mI).foldl (fun st i =>
      (List.range' 1 mJ).foldl (fun st j =>
        fillCell matrix inc ge go go maxJ (cif i) (cjf j) st i j) st) st0).jScore p
        = st0.jScore p := by
  refine foldl_induction _
    (fun st => st.mScore p = st0.mScore p ∧ st.iScore p = st0.iScore p ∧
      st.jScore p = st0.jScore p) _ st0 ⟨rfl, rfl, rfl⟩ ?_
  intro st i hi hst
  obtain ⟨hi1, hi2⟩ := mem_range'_one hi
  refine foldl_induction _
    (fun st' => st'.mScore p = st0.mScore p ∧ st'.iScore p = st0.iScore p ∧
      st'.jScore p = st0.jScore p) _ st hst ?_
  intro st' j hj hst'
  obtain ⟨hj1, hj2⟩ := mem_range'_one hj
  obtain ⟨e1, e2, e3, _, _, _⟩ := fillCell_apart matrix inc ge go go maxJ (cif i) (cjf j) st' i j p
    (hp i j hi1 (by omega) hj1 (by omega))
  exact ⟨e1.trans hst'.1, e2.trans hst'.2.1, e3.trans hst'.2.2⟩

theorem upd_self (t : Nat → Int) (k : Nat) (v : Int) : upd t k v k = v := by
  simp [upd]

theorem upd_ne (t : Nat → Int) (k : Nat) (v : Int) (k' : Nat) (h : k' ≠ k) :
    upd t k v k' = t k' := by
  simp [upd, h]

theorem initIRow_iScore_self (maxJ : Nat) (ge inc0 : Int) (st : AlignState) (i : Nat) :
    (initIRow maxJ ge inc0 st i).iScore (idxF maxJ 0 i) = ge * (i : Int) + inc0 := by
  unfold initIRow
  dsimp only
  rw [upd_self]

theorem initIRow_iScore_ne (maxJ : Nat) (ge inc0 : Int) (st : AlignState) (i p : Nat)
    (h : p ≠ idxF maxJ 0 i) :
    (initIRow maxJ ge inc0 st i).iScore p = st.iScore p := by
  unfold initIRow
  dsimp only
  rw [upd_ne _ _ _ _ h]

theorem initJCol_jScore_self (maxJ : Nat) (ge inc0 : Int) (st : AlignState) (i : Nat) :
    (initJCol maxJ ge inc0 st i).jScore (idxF maxJ i 0) = ge * (i : Int) + inc0 := by
  unfold initJCol
  dsimp only
  rw [upd_self]

theorem initJCol_jScore_ne (maxJ : Nat) (ge inc0 : Int) (st : AlignState) (i p : Nat)
    (h : p ≠ idxF maxJ i 0) :
    (initJCol maxJ ge inc0 st i).jScore p = st.jScore p := by
  unfold initJCol
  dsimp only
  rw [upd_ne _ _ _ _ h]

-- init I-row fold value
theorem initIRow_fold_value (maxJ : Nat) (ge inc0 : Int) :
    ∀ (n : Nat) (st0 : AlignState) (j : Nat), 1 ≤ j → j ≤ n →
      ((List.range' 1 n).foldl (initIRow maxJ ge inc0) st0).iScore (idxF maxJ 0 j)
        = ge * (j : Int) + inc0 := by
  intro n
  induction n with
  | zero => intro st0 j h1 h2; omega
  | succ n ih =>
    intro st0 j h1 h2
    rw [List.range'_1_concat, List.foldl_append, List.foldl_cons, List.foldl_nil]
    by_cases hje : j = n + 1
    · subst hje
      rw [show (1 + n) = n + 1 by omega]
      exact initIRow_iScore_self maxJ ge inc0 _ (n + 1)
    · rw [initIRow_iScore_ne maxJ ge inc0 _ (1 + n) _ (by unfold idxF; omega)]
      exact ih st0 j h1 (by omega)

theorem initJCol_fold_value (maxJ : Nat) (ge inc0 : Int) :
    ∀ (n : Nat) (st0 : AlignState) (i : Nat), 1 ≤ i → i ≤ n →
      ((List.range' 1 n).foldl (initJCol maxJ ge inc0) st0).jScore (idxF maxJ i 0)
        = ge * (i : Int) + inc0 := by
  intro n
  induction n with
  | zero => intro st0 i h1 h2; omega
  | succ n ih =>
    intro st0 i h1 h2
    rw [List.range'_1_concat, List.foldl_append, List.foldl_cons, List.foldl_nil]
    by_cases hie : i = n + 1
    · subst hie
      rw [show (1 + n) = n + 1 by omega]
      exact initJCol_jScore_self maxJ ge inc0 _ (n + 1)
    · rw [initJCol_jScore_ne maxJ ge inc0 _ (1 + n) _
        (by rw [ne_eq, idxF_eq_iff maxJ _ _ _ _ (by omega) (by omega)]; omega)]
      exact ih st0 i h1 (by omega)



theorem foldl_initMRow_other (maxJ : Nat) (ms : Int) :
    ∀ (L : List Nat) (st : AlignState) (p : Nat),
      (L.foldl (initMRow maxJ ms) st).iScore p = st.iScore p ∧
      (L.foldl (initMRow maxJ ms) st).jScore p = st.jScore p := by
  intro L
  induction L with
  | nil => intro st p; exact ⟨rfl, rfl⟩
  | cons a L ih =>
    intro st p
    rw [List.foldl_cons]
    exact ih _ p

theorem foldl_initMCol_other (maxJ : Nat) (ms : Int) :
    ∀ (L : List Nat) (st : AlignState) (p : Nat),
      (L.foldl (initMCol maxJ ms) st).iScore p = st.iScore p ∧
      (L.foldl (initMCol maxJ ms) st).jScore p = st.jScore p := by
  intro L
  induction L with
  | nil => intro st p; exact ⟨rfl, rfl⟩
  | cons a L ih =>
    intro st p
    rw [List.foldl_cons]
    exact ih _ p

theorem foldl_initIRow_jScore (maxJ : Nat) (ge inc0 : Int) :
    ∀ (L : List Nat) (st : AlignState) (p : Nat),
      (L.foldl (initIRow maxJ ge inc0) st).jScore p = st.jScore p := by
  intro L
  induction L with
  | nil => intro st p; rfl
  | cons a L ih =>
    intro st p
    rw [List.foldl_cons]
    exact ih _ p

theorem foldl_initICol_jScore (maxJ : Nat) (ms : Int) :
    ∀ (L : List Nat) (st : AlignState) (p : Nat),
      (L.foldl (initICol maxJ ms) st).jScore p = st.jScore p := by
  intro L
  induction L with
  | nil => intro st p; rfl
  | cons a L ih =>
    intro st p
    rw [List.foldl_cons]
    exact ih _ p

theorem foldl_initICol_iScore_ne (maxJ : Nat) (ms : Int) :
    ∀ (L : List Nat) (st : AlignState) (p : Nat),
      (∀ i, i ∈ L → p ≠ idxF maxJ i 0) →
      (L.foldl (initICol maxJ ms) st).iScore p = st.iScore p := by
  intro L
  induction L with
  | nil => intro st p _; rfl
  | cons a L ih =>
    intro st p hp
    rw [List.foldl_cons]
    rw [ih _ p (fun i hi => hp i (List.mem_cons_of_mem _ hi))]
    unfold initICol
    dsimp only
    rw [upd_ne _ _ _ _ (hp a (List.mem_cons_self a L))]

theorem foldl_initJCol_iScore (maxJ : Nat) (ge inc0 : Int) :
    ∀ (L : List Nat) (st : AlignState) (p : Nat),
      (L.foldl (initJCol maxJ ge inc0) st).iScore p = st.iScore p := by
  intro L
  induction L with
  | nil => intro st p; rfl
  | cons a L ih =>
    intro st p
    rw [List.foldl_cons]
    exact ih _ p

theorem foldl_initJRow_iScore (maxJ : Nat) (ms : Int) :
    ∀ (L : List Nat) (st : AlignState) (p : Nat),
      (L.foldl (initJRow maxJ ms) st).iScore p = st.iScore p := by
  intro L
  induction L with
  | nil => intro st p; rfl
  | cons a L ih =>
    intro st p
    rw [List.foldl_cons]
    exact ih _ p

theorem foldl_initJRow_jScore_ne (maxJ : Nat) (ms : Int) :
    ∀ (L : List Nat) (st : AlignState) (p : Nat),
      (∀ j, j ∈ L → p ≠ idxF maxJ 0 j) →
      (L.foldl (initJRow maxJ ms) st).jScore p = st.jScore p := by
  intro L
  induction L with
  | nil => intro st p _; rfl
  | cons a L ih =>
    intro st p hp
    rw [List.foldl_cons]
    rw [ih _ p (fun j hj => hp j (List.mem_cons_of_mem _ hj))]
    unfold initJRow
    dsimp only
    rw [upd_ne _ _ _ _ (hp a (List.mem_cons_self a L))]

theorem initTables_values (maxI maxJ : Nat) (minScore ge : Int) (inc : List Int) :
    (∀ j, 1 ≤ j → j ≤ maxJ →
      (initTables maxI maxJ minScore ge inc).iScore (idxF maxJ 0 j)
        = ge * (j : Int) + inc.getD 0 0) ∧
    (∀ i, 1 ≤ i → i ≤ maxI →
      (initTables maxI maxJ minScore ge inc).jScore (idxF maxJ i 0)
        = ge * (i : Int) + inc.getD 0 0) := by
  unfold initTables
  dsimp only
  constructor
  · intro j h1 h2
    rw [foldl_initJRow_iScore, foldl_initJCol_iScore]
    rw [foldl_initICol_iScore_ne _ _ _ _ _ ?hne]
    case hne =>
      intro i _
      rw [ne_eq, idxF_eq_iff maxJ _ _ _ _ h2 (by omega)]
      omega
    exact initIRow_fold_value maxJ ge (inc.getD 0 0) maxJ _ j h1 h2
  · intro i h1 h2
    rw [foldl_initJRow_jScore_ne _ _ _ _ _ ?hne2]
    case hne2 =>
      intro j hj
      have hjb : j < maxJ + 1 := List.mem_range.mp hj
      rw [ne_eq, idxF_eq_iff maxJ _ _ _ _ (by omega) (by omega)]
      omega
    exact initJCol_fold_value maxJ ge (inc.getD 0 0) maxI _ i h1 h2



theorem fillTables_spec (seqJ seqI : List Char) (matrix : Nat → Int) (inc : List Int)
    (go ge : Int) (maxI maxJ : Nat) (st0 : AlignState)
    (hI : 1 ≤ maxI) (hJ : 1 ≤ maxJ) :
    (∀ p, (∀ i' j', 1 ≤ i' → i' ≤ maxI → 1 ≤ j' → j' ≤ maxJ → p ≠ idxF maxJ i' j') →
      (fillTables seqJ seqI matrix inc go ge maxI maxJ st0).mScore p = st0.mScore p ∧
      (fillTables seqJ seqI matrix inc go ge maxI maxJ st0).iScore p = st0.iScore p ∧
      (fillTables seqJ seqI matrix inc go ge maxI maxJ st0).jScore p = st0.jScore p) ∧
    (∀ j, 1 ≤ j → j ≤ maxJ →
      (fillTables seqJ seqI matrix inc go ge maxI maxJ st0).iScore (idxF maxJ maxI j) =
        max (ge + (fillTables seqJ seqI matrix inc go ge maxI maxJ st0).mScore
            (idxF maxJ maxI (j - 1)) + inc.getD maxI 0)
          (ge + (fillTables seqJ seqI matrix inc go ge maxI maxJ st0).iScore
            (idxF maxJ maxI (j - 1)) + inc.getD maxI 0) ∧
      (fillTables seqJ seqI matrix inc go ge maxI maxJ st0).jScore (idxF maxJ maxI j) =
        max (ge + (fillTables seqJ seqI matrix inc go ge maxI maxJ st0).mScore
            (idxF maxJ (maxI - 1) j) + inc.getD (maxI - 1) 0)
          (ge + (fillTables seqJ seqI matrix inc go ge maxI maxJ st0).jScore
            (idxF maxJ (maxI - 1) j))) ∧
    (∀ i, 1 ≤ i → i ≤ maxI - 1 →
      (fillTables seqJ seqI matrix inc go ge maxI maxJ st0).iScore (idxF maxJ i maxJ) =
        max (ge + (fillTables seqJ seqI matrix inc go ge maxI maxJ st0).mScore
            (idxF maxJ i (maxJ - 1)) + inc.getD i 0)
          (ge + (fillTables seqJ seqI matrix inc go ge maxI maxJ st0).iScore
            (idxF maxJ i (maxJ - 1)) + inc.getD i 0) ∧
      (fillTables seqJ seqI matrix inc go ge maxI maxJ st0).jScore (idxF maxJ i maxJ) =
        max (ge + (fillTables seqJ seqI matrix inc go ge maxI maxJ st0).mScore
            (idxF maxJ (i - 1) maxJ) + inc.getD (i - 1) 0)
          (ge + (fillTables seqJ seqI matrix inc go ge maxI maxJ st0).jScore
            (idxF maxJ (i - 1) maxJ))) := by
  unfold fillTables
  dsimp only
  obtain ⟨lrPres, lrEqs⟩ := lastRowFold_spec matrix inc ge maxI maxJ
    (code seqI (maxI - 1)) (fun j => code seqJ (j - 1)) hI maxJ
    ((List.range' 1 (maxI - 1)).foldl
      (fun st i => fillCell matrix inc ge ge ge maxJ (code seqI (i - 1))
        (code seqJ (maxJ - 1)) st i maxJ)
      ((List.range' 1 (maxI - 1)).foldl (fun st i =>
        (List.range' 1 (maxJ - 1)).foldl (fun st j =>
          fillCell matrix inc ge go go maxJ (code seqI (i - 1)) (code seqJ (j - 1)) st i j)
        st) st0))
    (le_refl maxJ)
  obtain ⟨lcPres, lcEqs⟩ := lastColFold_spec matrix inc ge maxJ
    (code seqJ (maxJ - 1)) (fun i => code seqI (i - 1)) hJ (maxI - 1)
    ((List.range' 1 (maxI - 1)).foldl (fun st i =>
      (List.range' 1 (maxJ - 1)).foldl (fun st j =>
        fillCell matrix inc ge go go maxJ (code seqI (i - 1)) (code seqJ (j - 1)) st i j)
      st) st0)
  refine ⟨?_, ?_, ?_⟩
  · intro p hp
    obtain ⟨a1, a2, a3⟩ := lrPres p (fun j' h1 h2 => hp maxI j' hI (le_refl _) h1 h2)
    obtain ⟨b1, b2, b3⟩ := lcPres p (fun i' h1 h2 => hp i' maxJ h1 (by omega) hJ (le_refl _))
    obtain ⟨c1, c2, c3⟩ := interiorFold_apart matrix inc go ge maxJ
      (fun i => code seqI (i - 1)) (fun j => code seqJ (j - 1)) (maxI - 1) (maxJ - 1) p
      (fun i' j' h1 h2 h3 h4 => hp i' j' h1 (by omega) h3 (by omega)) st0
    exact ⟨a1.trans (b1.trans c1), a2.trans (b2.trans c2), a3.trans (b3.trans c3)⟩
  · exact lrEqs
  · intro i h1 h2
    obtain ⟨q1, q2⟩ := lcEqs i h1 h2
    have t1 := lrPres (idxF maxJ i maxJ) (fun j' hj1 hj2 => by
      rw [ne_eq, idxF_eq_iff maxJ _ _ _ _ (le_refl _) hj2]
      omega)
    have t2 := lrPres (idxF maxJ i (maxJ - 1)) (fun j' hj1 hj2 => by
      rw [ne_eq, idxF_eq_iff maxJ _ _ _ _ (by omega) hj2]
      omega)
    have t3 := lrPres (idxF maxJ (i - 1) maxJ) (fun j' hj1 hj2 => by
      rw [ne_eq, idxF_eq_iff maxJ _ _ _ _ (le_refl _) hj2]
      omega)
    constructor
    · rw [t1.2.1, t2.1, t2.2.1, q1]
    · rw [t1.2.2, t3.1, t3.2.2, q2]



/-- Claim C2 (confirmed): in the filled planes, the boundary rows carry
`I[0, j] = gapExtend * j + incentive[0]` and `J[i, 0] = gapExtend * i +
incentive[0]` (a terminal gap of length `k` hence scores `k * gapExtend`
plus the boundary incentive, with no `gapOpen` term), and in the last row
(`i = |reference|`) and last column (`j = |read|`) the transition from the
M plane into the I and J planes is charged `gapExtend`, not `gapOpen`:
every such cell is the maximum of two `gapExtend`-penalized candidates. -/
theorem terminal_gap_extend_spec (seqJ seqI : List Char) (matrix : Nat → Int) (inc : List Int)
    (go ge : Int) (hI : 1 ≤ seqI.length) (hJ : 1 ≤ seqJ.length) :
    (∀ j, 1 ≤ j → j ≤ seqJ.length →
      (alignTables seqJ seqI matrix inc go ge).iScore (idxF seqJ.length 0 j)
        = ge * (j : Int) + inc.getD 0 0) ∧
    (∀ i, 1 ≤ i → i ≤ seqI.length →
      (alignTables seqJ seqI matrix inc go ge).jScore (idxF seqJ.length i 0)
        = ge * (i : Int) + inc.getD 0 0) ∧
    (∀ j, 1 ≤ j → j ≤ seqJ.length →
      (alignTables seqJ seqI matrix inc go ge).iScore (idxF seqJ.length seqI.length j) =
        max (ge + (alignTables seqJ seqI matrix inc go ge).mScore
            (idxF seqJ.length seqI.length (j - 1)) + inc.getD seqI.length 0)
          (ge + (alignTables seqJ seqI matrix inc go ge).iScore
            (idxF seqJ.length seqI.length (j - 1)) + inc.getD seqI.length 0) ∧
      (alignTables seqJ seqI matrix inc go ge).jScore (idxF seqJ.length seqI.length j) =
        max (ge + (alignTables seqJ seqI matrix inc go ge).mScore
            (idxF seqJ.length (seqI.length - 1) j) + inc.getD (seqI.length - 1) 0)
          (ge + (alignTables seqJ seqI matrix inc go ge).jScore
            (idxF seqJ.length (seqI.length - 1) j))) ∧
    (∀ i, 1 ≤ i → i ≤ seqI.length - 1 →
      (alignTables seqJ seqI matrix inc go ge).iScore (idxF seqJ.length i seqJ.length) =
        max (ge + (alignTables seqJ seqI matrix inc go ge).mScore
            (idxF seqJ.length i (seqJ.length - 1)) + inc.getD i 0)
          (ge + (alignTables seqJ seqI matrix inc go ge).iScore
            (idxF seqJ.length i (seqJ.length - 1)) + inc.getD i 0) ∧
      (alignTables seqJ seqI matrix inc go ge).jScore (idxF seqJ.length i seqJ.length) =
        max (ge + (alignTables seqJ seqI matrix inc go ge).mScore
            (idxF seqJ.length (i - 1) seqJ.length) + inc.getD (i - 1) 0)
          (ge + (alignTables seqJ seqI matrix inc go ge).jScore
            (idxF seqJ.length (i - 1) seqJ.length))) := by
  unfold alignTables
  obtain ⟨pres, lrEqs, lcEqs⟩ := fillTables_spec seqJ seqI matrix inc go ge
    seqI.length seqJ.length
    (initTables seqI.length seqJ.length
      (go * (seqJ.length : Int) * (seqI.length : Int)) ge inc) hI hJ
  obtain ⟨initI, initJ⟩ := initTables_values seqI.length seqJ.length
    (go * (seqJ.length : Int) * (seqI.length : Int)) ge inc
  refine ⟨?_, ?_, lrEqs, lcEqs⟩
  · intro j h1 h2
    have hpres := pres (idxF seqJ.length 0 j) (fun i' j' hi1 hi2 hj1 hj2 => by
      rw [ne_eq, idxF_eq_iff seqJ.length _ _ _ _ h2 hj2]
      omega)
    rw [hpres.2.1]
    exact initI j h1 h2
  · intro i h1 h2
    have hpres := pres (idxF seqJ.length i 0) (fun i' j' hi1 hi2 hj1 hj2 => by
      rw [ne_eq, idxF_eq_iff seqJ.length _ _ _ _ (by omega) hj2]
      omega)
    rw [hpres.2.2]
    exact initJ i h1 h2

theorem terminal_gap_extend_spec_witness :
    (1 : Nat) ≤ (['A'] : List Char).length ∧
    (alignTables ['T'] ['A'] defaultMatrix [0, 0] (-1) (-1)).iScore (idxF 1 0 1)
      = (-1) * ((1 : Nat) : Int) + ([0, 0] : List Int).getD 0 0 :=
  ⟨by decide, ((terminal_gap_extend_spec ['T'] ['A'] defaultMatrix [0, 0] (-1) (-1)
    (by decide) (by decide)).1 1 (by decide) (by decide))⟩


theorem findStepRef_startDeletion (readAl refAl : List Char) (w : List Int)
    (st : VState) (idxC : Nat) :
    (findStepRef readAl refAl w st idxC).startDeletion = st.startDeletion := by
  unfold findStepRef
  dsimp only
  split_ifs <;> rfl

theorem findStepRef_refPositions (readAl refAl : List Char) (w : List Int)
    (st : VState) (idxC : Nat) :
    (findStepRef readAl refAl w st idxC).refPositions = st.refPositions ++
      [if refAl.get? idxC ≠ some '-' then (st.idx : Int)
       else if st.idx = 0 then (-1 : Int) else -(st.idx : Int)] := by
  unfold findStepRef
  dsimp only
  split_ifs <;> simp_all

/-- Claim C8 (counterexample): on aligned read `A-A` against reference
`AAA` with full window, a deletion opens at column 1, where
`ref_positions[1] = 1`, yet the recorded coordinates are `(0, 2)` — start
`0`, not `ref_positions[1]` — and the recorded size is 2 for a single gap
column. -/
theorem deletion_start_counterexample :
    (findIndelsSubstitutions ['A', '-', 'A'] ['A', 'A', 'A'] [0, 1, 2]).allDeletionCoordinates
      = [(0, 2)] ∧
    (findIndelsSubstitutions ['A', '-', 'A'] ['A', 'A', 'A'] [0, 1, 2]).refPositions
      = [0, 1, 2] ∧
    (findIndelsSubstitutions ['A', '-', 'A'] ['A', 'A', 'A'] [0, 1, 2]).deletionSizes
      = [2] := by decide

/-- Claim C8 (corrected): when the scan opens a deletion at aligned column
`idxC` (read character is the gap, no deletion open), the recorded start
coordinate is `refPositions[idxC]` only for `idxC ≥ 2` (the source tests
`idxC - 1 > 0`), and `0` at both column 0 and column 1 — not only at
column 0 as the claim states. -/
theorem deletion_start_spec (readAl refAl : List Char) (w : List Int) (st : VState)
    (idxC : Nat) (hr : readAl.get? idxC = some '-') (hd : st.startDeletion = -1) :
    (findStep readAl refAl w st idxC).startDeletion =
      if 2 ≤ idxC then (findStep readAl refAl w st idxC).refPositions.getD idxC 0
      else 0 := by
  unfold findStep findStepDel
  dsimp only
  rw [hr, findStepRef_startDeletion]
  rw [if_pos ⟨rfl, hd⟩]
  dsimp only
  by_cases hc : 2 ≤ idxC
  · rw [if_pos (show idxC - 1 > 0 by omega), if_pos hc]
  · rw [if_neg (show ¬idxC - 1 > 0 by omega), if_neg hc]

theorem deletion_start_spec_witness :
    (['A', '-', 'A'] : List Char).get? 1 = some '-' ∧
    VState.init.startDeletion = -1 ∧
    (findStep ['A', '-', 'A'] ['A', 'A', 'A'] [0, 1, 2] VState.init 1).startDeletion =
      (if 2 ≤ 1 then
        (findStep ['A', '-', 'A'] ['A', 'A', 'A'] [0, 1, 2] VState.init 1).refPositions.getD 1 0
       else 0) :=
  ⟨by decide, by decide,
    deletion_start_spec ['A', '-', 'A'] ['A', 'A', 'A'] [0, 1, 2] VState.init 1
      (by decide) (by decide)⟩

/-! ## Extractor characterization lemmas and the edge-run and totals theorems -/

theorem closeDeletion_other (w : List Int) (st : VState) (e : Int) :
    (closeDeletion w st e).idx = st.idx ∧
    (closeDeletion w st e).startInsertion = st.startInsertion ∧
    (closeDeletion w st e).currentInsertionSize = st.currentInsertionSize ∧
    (closeDeletion w st e).refPositions = st.refPositions ∧
    (closeDeletion w st e).allInsertionPositions = st.allInsertionPositions ∧
    (closeDeletion w st e).allInsertionLeftPositions = st.allInsertionLeftPositions ∧
    (closeDeletion w st e).insertionPositions = st.insertionPositions ∧
    (closeDeletion w st e).insertionCoordinates = st.insertionCoordinates ∧
    (closeDeletion w st e).insertionSizes = st.insertionSizes ∧
    (closeDeletion w st e).allSubstitutionPositions = st.allSubstitutionPositions ∧
    (closeDeletion w st e).substitutionPositions = st.substitutionPositions ∧
    (closeDeletion w st e).allSubstitutionValues = st.allSubstitutionValues ∧
    (closeDeletion w st e).substitutionValues = st.substitutionValues := by
  unfold closeDeletion
  dsimp only
  split_ifs <;> exact ⟨rfl, rfl, rfl, rfl, rfl, rfl, rfl, rfl, rfl, rfl, rfl, rfl, rfl⟩

theorem closeDeletion_spec (w : List Int) (st : VState) (e : Int) :
    (closeDeletion w st e).startDeletion = -1 ∧
    (closeDeletion w st e).allDeletionPositions =
      st.allDeletionPositions ++ intRange st.startDeletion e ∧
    (closeDeletion w st e).allDeletionCoordinates =
      st.allDeletionCoordinates ++ [(st.startDeletion, e)] ∧
    ((∃ i ∈ intRange st.startDeletion e, i ∈ w) →
      (closeDeletion w st e).deletionPositions =
        st.deletionPositions ++ intRange st.startDeletion e ∧
      (closeDeletion w st e).deletionCoordinates =
        st.deletionCoordinates ++ [(st.startDeletion, e)] ∧
      (closeDeletion w st e).deletionSizes =
        st.deletionSizes ++ [e - st.startDeletion]) ∧
    (¬(∃ i ∈ intRange st.startDeletion e, i ∈ w) →
      (closeDeletion w st e).deletionPositions = st.deletionPositions ∧
      (closeDeletion w st e).deletionCoordinates = st.deletionCoordinates ∧
      (closeDeletion w st e).deletionSizes = st.deletionSizes) := by
  unfold closeDeletion
  dsimp only
  have hiff : ((intRange st.startDeletion e).any fun i => decide (i ∈ w)) = true ↔
      ∃ i ∈ intRange st.startDeletion e, i ∈ w := by
    rw [List.any_eq_true]
    simp
  split_ifs with hw
  · exact ⟨rfl, rfl, rfl, fun _ => ⟨rfl, rfl, rfl⟩, fun hn => absurd (hiff.mp hw) hn⟩
  · exact ⟨rfl, rfl, rfl, fun hx => absurd (hiff.mpr hx) hw, fun _ => ⟨rfl, rfl, rfl⟩⟩

theorem findStepRef_base_spec (readAl refAl : List Char) (w : List Int) (st : VState)
    (idxC : Nat) (h : refAl.get? idxC ≠ some '-') :
    (findStepRef readAl refAl w st idxC).idx = st.idx + 1 ∧
    (findStepRef readAl refAl w st idxC).startInsertion = -1 ∧
    (findStepRef readAl refAl w st idxC).currentInsertionSize = 0 := by
  unfold findStepRef
  dsimp only
  rw [if_pos h]
  split_ifs <;> refine ⟨rfl, ?_, rfl⟩ <;> first | rfl | simp_all

theorem findStepRef_base_ins_none (readAl refAl : List Char) (w : List Int) (st : VState)
    (idxC : Nat) (h : refAl.get? idxC ≠ some '-') (h2 : st.startInsertion = -1) :
    (findStepRef readAl refAl w st idxC).allInsertionPositions = st.allInsertionPositions ∧
    (findStepRef readAl refAl w st idxC).allInsertionLeftPositions
      = st.allInsertionLeftPositions ∧
    (findStepRef readAl refAl w st idxC).insertionPositions = st.insertionPositions ∧
    (findStepRef readAl refAl w st idxC).insertionCoordinates = st.insertionCoordinates ∧
    (findStepRef readAl refAl w st idxC).insertionSizes = st.insertionSizes := by
  unfold findStepRef
  dsimp only
  rw [if_pos h]
  rw [if_neg (show ¬st.startInsertion ≠ -1 by simpa using h2)]
  split_ifs <;> exact ⟨rfl, rfl, rfl, rfl, rfl⟩

theorem findStepRef_base_ins_close (readAl refAl : List Char) (w : List Int) (st : VState)
    (idxC : Nat) (h : refAl.get? idxC ≠ some '-') (h2 : st.startInsertion ≠ -1) :
    (findStepRef readAl refAl w st idxC).allInsertionLeftPositions
      = st.allInsertionLeftPositions ++ [st.startInsertion] ∧
    (findStepRef readAl refAl w st idxC).allInsertionPositions
      = st.allInsertionPositions ++ [st.startInsertion, (st.idx : Int)] ∧
    (st.startInsertion ∈ w ∧ (st.idx : Int) ∈ w →
      (findStepRef readAl refAl w st idxC).insertionCoordinates
        = st.insertionCoordinates ++ [(st.startInsertion, (st.idx : Int))] ∧
      (findStepRef readAl refAl w st idxC).insertionPositions
        = st.insertionPositions ++ [st.startInsertion, (st.idx : Int)] ∧
      (findStepRef readAl refAl w st idxC).insertionSizes
        = st.insertionSizes ++ [st.currentInsertionSize]) ∧
    (¬(st.startInsertion ∈ w ∧ (st.idx : Int) ∈ w) →
      (findStepRef readAl refAl w st idxC).insertionCoordinates = st.insertionCoordinates ∧
      (findStepRef readAl refAl w st idxC).insertionPositions = st.insertionPositions ∧
      (findStepRef readAl refAl w st idxC).insertionSizes = st.insertionSizes) := by
  unfold findStepRef
  dsimp only
  rw [if_pos h, if_pos h2]
  split_ifs <;>
    refine ⟨rfl, rfl, fun hx => ?_, fun hn => ?_⟩ <;>
    first
      | exact ⟨rfl, rfl, rfl⟩
      | simp_all



theorem findStepRef_gap_spec (readAl refAl : List Char) (w : List Int) (st : VState)
    (idxC : Nat) (h : refAl.get? idxC = some '-') :
    (findStepRef readAl refAl w st idxC).idx = st.idx ∧
    (findStepRef readAl refAl w st idxC).startInsertion =
      (if st.idx > 0 ∧ st.startInsertion = -1 then (st.idx : Int) - 1
       else st.startInsertion) ∧
    (findStepRef readAl refAl w st idxC).currentInsertionSize
      = st.currentInsertionSize + 1 ∧
    (findStepRef readAl refAl w st idxC).allInsertionPositions = st.allInsertionPositions ∧
    (findStepRef readAl refAl w st idxC).allInsertionLeftPositions
      = st.allInsertionLeftPositions ∧
    (findStepRef readAl refAl w st idxC).insertionPositions = st.insertionPositions ∧
    (findStepRef readAl refAl w st idxC).insertionCoordinates = st.insertionCoordinates ∧
    (findStepRef readAl refAl w st idxC).insertionSizes = st.insertionSizes ∧
    (findStepRef readAl refAl w st idxC).allSubstitutionPositions
      = st.allSubstitutionPositions ∧
    (findStepRef readAl refAl w st idxC).substitutionPositions = st.substitutionPositions := by
  unfold findStepRef
  dsimp only
  rw [if_neg (by simpa using h)]
  split_ifs with hb <;>
    first
      | exact ⟨rfl, rfl, rfl, rfl, rfl, rfl, rfl, rfl, rfl, rfl⟩
      | simp_all

theorem findStepRef_subs (readAl refAl : List Char) (w : List Int) (st : VState)
    (idxC : Nat) :
    (findStepRef readAl refAl w st idxC).substitutionPositions
      = st.substitutionPositions ++
        (if refAl.get? idxC ≠ some '-' ∧
            (refAl.get? idxC ≠ readAl.get? idxC ∧ readAl.get? idxC ≠ some '-' ∧
              readAl.get? idxC ≠ some 'N') ∧ (st.idx : Int) ∈ w
         then [(st.idx : Int)] else []) := by
  unfold findStepRef
  dsimp only
  split_ifs <;> simp_all

theorem findStepRef_del_fields (readAl refAl : List Char) (w : List Int) (st : VState)
    (idxC : Nat) :
    (findStepRef readAl refAl w st idxC).allDeletionPositions = st.allDeletionPositions ∧
    (findStepRef readAl refAl w st idxC).allDeletionCoordinates
      = st.allDeletionCoordinates ∧
    (findStepRef readAl refAl w st idxC).deletionPositions = st.deletionPositions ∧
    (findStepRef readAl refAl w st idxC).deletionCoordinates = st.deletionCoordinates ∧
    (findStepRef readAl refAl w st idxC).deletionSizes = st.deletionSizes := by
  unfold findStepRef
  dsimp only
  split_ifs <;> exact ⟨rfl, rfl, rfl, rfl, rfl⟩

theorem findStepDel_ins_fields (readAl : List Char) (w : List Int) (st : VState)
    (idxC : Nat) :
    (findStepDel readAl w st idxC).idx = st.idx ∧
    (findStepDel readAl w st idxC).startInsertion = st.startInsertion ∧
    (findStepDel readAl w st idxC).currentInsertionSize = st.currentInsertionSize ∧
    (findStepDel readAl w st idxC).refPositions = st.refPositions ∧
    (findStepDel readAl w st idxC).allInsertionPositions = st.allInsertionPositions ∧
    (findStepDel readAl w st idxC).allInsertionLeftPositions
      = st.allInsertionLeftPositions ∧
    (findStepDel readAl w st idxC).insertionPositions = st.insertionPositions ∧
    (findStepDel readAl w st idxC).insertionCoordinates = st.insertionCoordinates ∧
    (findStepDel readAl w st idxC).insertionSizes = st.insertionSizes ∧
    (findStepDel readAl w st idxC).allSubstitutionPositions = st.allSubstitutionPositions ∧
    (findStepDel readAl w st idxC).substitutionPositions = st.substitutionPositions := by
  unfold findStepDel
  dsimp only
  obtain ⟨c1, c2, c3, c4, c5, c6, c7, c8, c9, c10, c11, _, _⟩ :=
    closeDeletion_other w st (st.refPositions.getD idxC 0)
  split_ifs <;>
    first
      | exact ⟨rfl, rfl, rfl, rfl, rfl, rfl, rfl, rfl, rfl, rfl, rfl⟩
      | exact ⟨c1, c2, c3, c4, c5, c6, c7, c8, c9, c10, c11⟩

theorem insOutputsState_eq_of_insSim {st st' : VState} (h : insSim st st') :
    insOutputsState st = insOutputsState st' := by
  obtain ⟨h1, h2, h3, h4, h5, h6, h7, h8⟩ := h
  unfold insOutputsState
  rw [h3, h4, h5, h6, h7]

/-- `insOutputs` of the report depends only on the fold state: the trailing
deletion close touches no insertion field. -/
theorem findIndels_insOutputs (readAl refAl : List Char) (w : List Int) :
    insOutputs (findIndelsSubstitutions readAl refAl w)
      = insOutputsState
          ((List.range refAl.length).foldl (findStep readAl refAl w) VState.init) := by
  unfold findIndelsSubstitutions insOutputs insOutputsState
  dsimp only
  split_ifs with h
  · obtain ⟨_, _, _, _, c5, c6, c7, c8, c9, _, _, _, _⟩ :=
      closeDeletion_other w
        ((List.range refAl.length).foldl (findStep readAl refAl w) VState.init)
        (((List.range refAl.length).foldl (findStep readAl refAl w)
          VState.init).refPositions.getD (refAl.length - 1) 0)
    rw [c5, c6, c7, c8, c9]
  · rfl

theorem insSim_step (readAl refAl readAl' refAl' : List Char) (w : List Int)
    (st st' : VState) (a b : Nat)
    (hc : refAl.get? a = refAl'.get? b) (hR : insSim st st') :
    insSim (findStep readAl refAl w st a) (findStep readAl' refAl' w st' b) := by
  obtain ⟨h1, h2, h3, h4, h5, h6, h7, h8⟩ := hR
  unfold findStep
  obtain ⟨d1, d2, d3, _, d5, d6, d7, d8, d9, _, _⟩ :=
    findStepDel_ins_fields readAl w (findStepRef readAl refAl w st a) a
  obtain ⟨e1, e2, e3, _, e5, e6, e7, e8, e9, _, _⟩ :=
    findStepDel_ins_fields readAl' w (findStepRef readAl' refAl' w st' b) b
  suffices h : insSim (findStepRef readAl refAl w st a)
      (findStepRef readAl' refAl' w st' b) by
    obtain ⟨k1, k2, k3, k4, k5, k6, k7, k8⟩ := h
    refine ⟨by rw [d1, e1, k1], by rw [d2, e2, k2], by rw [d5, e5, k3],
      by rw [d6, e6, k4], by rw [d7, e7, k5], by rw [d8, e8, k6],
      by rw [d9, e9, k7], ?_⟩
    rcases k8 with hcs | hz
    · exact Or.inl (by rw [d3, e3, hcs])
    · exact Or.inr ⟨by rw [d1, hz.1], by rw [d2, hz.2]⟩
  by_cases hg : refAl.get? a = some '-'
  · have hg' : refAl'.get? b = some '-' := by rw [← hc]; exact hg
    obtain ⟨g1, g2, g3, g4, g5, g6, g7, g8, _, _⟩ :=
      findStepRef_gap_spec readAl refAl w st a hg
    obtain ⟨f1, f2, f3, f4, f5, f6, f7, f8, _, _⟩ :=
      findStepRef_gap_spec readAl' refAl' w st' b hg'
    refine ⟨by rw [g1, f1, h1], by rw [g2, f2, h1, h2],
      by rw [g4, f4, h3], by rw [g5, f5, h4], by rw [g6, f6, h5],
      by rw [g7, f7, h6], by rw [g8, f8, h7], ?_⟩
    rcases h8 with hcs | hz
    · exact Or.inl (by rw [g3, f3, hcs])
    · refine Or.inr ⟨by rw [g1, hz.1], ?_⟩
      rw [g2, hz.1, hz.2]
      simp
  · have hg' : refAl'.get? b ≠ some '-' := by rw [← hc]; exact hg
    obtain ⟨b1, b2, b3⟩ := findStepRef_base_spec readAl refAl w st a hg
    obtain ⟨a1, a2, a3⟩ := findStepRef_base_spec readAl' refAl' w st' b hg'
    by_cases hs : st.startInsertion = -1
    · have hs' : st'.startInsertion = -1 := by rw [← h2]; exact hs
      obtain ⟨n1, n2, n3, n4, n5⟩ :=
        findStepRef_base_ins_none readAl refAl w st a hg hs
      obtain ⟨m1, m2, m3, m4, m5⟩ :=
        findStepRef_base_ins_none readAl' refAl' w st' b hg' hs'
      exact ⟨by rw [b1, a1, h1], by rw [b2, a2], by rw [n1, m1, h3],
        by rw [n2, m2, h4], by rw [n3, m3, h5], by rw [n4, m4, h6],
        by rw [n5, m5, h7], Or.inl (by rw [b3, a3])⟩
    · have hs' : st'.startInsertion ≠ -1 := by rw [← h2]; exact hs
      have hcs : st.currentInsertionSize = st'.currentInsertionSize := by
        rcases h8 with h | h
        · exact h
        · exact absurd h.2 hs
      obtain ⟨c1, c2, c3, c4⟩ :=
        findStepRef_base_ins_close readAl refAl w st a hg hs
      obtain ⟨q1, q2, q3, q4⟩ :=
        findStepRef_base_ins_close readAl' refAl' w st' b hg' hs'
      by_cases hw2 : st.startInsertion ∈ w ∧ (st.idx : Int) ∈ w
      · have hw2' : st'.startInsertion ∈ w ∧ (st'.idx : Int) ∈ w := by
          rw [← h1, ← h2]; exact hw2
        obtain ⟨p1, p2, p3⟩ := c3 hw2
        obtain ⟨r1, r2, r3⟩ := q3 hw2'
        exact ⟨by rw [b1, a1, h1], by rw [b2, a2],
          by rw [c2, q2, h3, h2, h1], by rw [c1, q1, h4, h2],
          by rw [p2, r2, h5, h2, h1], by rw [p1, r1, h6, h2, h1],
          by rw [p3, r3, h7, hcs], Or.inl (by rw [b3, a3])⟩
      · have hw2' : ¬(st'.startInsertion ∈ w ∧ (st'.idx : Int) ∈ w) := by
          rw [← h1, ← h2]; exact hw2
        obtain ⟨p1, p2, p3⟩ := c4 hw2
        obtain ⟨r1, r2, r3⟩ := q4 hw2'
        exact ⟨by rw [b1, a1, h1], by rw [b2, a2],
          by rw [c2, q2, h3, h2, h1], by rw [c1, q1, h4, h2],
          by rw [p2, r2, h5], by rw [p1, r1, h6],
          by rw [p3, r3, h7], Or.inl (by rw [b3, a3])⟩

theorem insSim_fold (readAl refAl readAl' refAl' : List Char) (w : List Int) :
    ∀ (m k k' : Nat), (∀ t, t < m → refAl.get? (k + t) = refAl'.get? (k' + t)) →
    ∀ st st', insSim st st' →
    insSim ((List.range' k m).foldl (findStep readAl refAl w) st)
      ((List.range' k' m).foldl (findStep readAl' refAl' w) st') := by
  intro m
  induction m with
  | zero => intro k k' _ st st' h; simpa using h
  | succ n ih =>
    intro k k' hc st st' hR
    rw [List.range'_succ, List.range'_succ]
    simp only [List.foldl_cons]
    refine ih (k + 1) (k' + 1) (fun t ht => ?_) _ _
      (insSim_step readAl refAl readAl' refAl' w st st' k k'
        (by simpa using hc 0 (by omega)) hR)
    have h := hc (t + 1) (by omega)
    rw [show k + (t + 1) = k + 1 + t by omega,
      show k' + (t + 1) = k' + 1 + t by omega] at h
    exact h



/-- Over an all-gap prefix of the reference, the scan stays at coordinate 0
with no open run and empty insertion lists. -/
theorem lead_prefix_state (readAl refAl : List Char) (w : List Int) (k : Nat)
    (h : ∀ t, t < k → refAl.get? t = some '-') :
    ((List.range' 0 k).foldl (findStep readAl refAl w) VState.init).idx = 0 ∧
    ((List.range' 0 k).foldl (findStep readAl refAl w) VState.init).startInsertion
      = -1 ∧
    ((List.range' 0 k).foldl (findStep readAl refAl w)
      VState.init).allInsertionPositions = [] ∧
    ((List.range' 0 k).foldl (findStep readAl refAl w)
      VState.init).allInsertionLeftPositions = [] ∧
    ((List.range' 0 k).foldl (findStep readAl refAl w)
      VState.init).insertionPositions = [] ∧
    ((List.range' 0 k).foldl (findStep readAl refAl w)
      VState.init).insertionCoordinates = [] ∧
    ((List.range' 0 k).foldl (findStep readAl refAl w)
      VState.init).insertionSizes = [] := by
  refine foldl_induction (findStep readAl refAl w)
    (fun st => st.idx = 0 ∧ st.startInsertion = -1 ∧
      st.allInsertionPositions = [] ∧ st.allInsertionLeftPositions = [] ∧
      st.insertionPositions = [] ∧ st.insertionCoordinates = [] ∧
      st.insertionSizes = [])
    (List.range' 0 k) VState.init ⟨rfl, rfl, rfl, rfl, rfl, rfl, rfl⟩ ?_
  intro st a ha hP
  obtain ⟨p1, p2, p3, p4, p5, p6, p7⟩ := hP
  have hga : refAl.get? a = some '-' := h a (by simpa using (mem_range'_one ha).2)
  unfold findStep
  obtain ⟨d1, d2, _, _, d5, d6, d7, d8, d9, _, _⟩ :=
    findStepDel_ins_fields readAl w (findStepRef readAl refAl w st a) a
  obtain ⟨g1, g2, _, g4, g5, g6, g7, g8, _, _⟩ :=
    findStepRef_gap_spec readAl refAl w st a hga
  refine ⟨by rw [d1, g1, p1], ?_, by rw [d5, g4, p3], by rw [d6, g5, p4],
    by rw [d7, g6, p5], by rw [d8, g7, p6], by rw [d9, g8, p7]⟩
  rw [d2, g2, p1, p2]
  simp

theorem findStepRef_congr (readAl refAl readAl' refAl' : List Char) (w : List Int)
    (st : VState) (idxC : Nat)
    (h1 : readAl.get? idxC = readAl'.get? idxC)
    (h2 : refAl.get? idxC = refAl'.get? idxC) :
    findStepRef readAl refAl w st idxC = findStepRef readAl' refAl' w st idxC := by
  unfold findStepRef
  rw [h1, h2]

theorem findStepDel_congr (readAl readAl' : List Char) (w : List Int)
    (st : VState) (idxC : Nat)
    (h1 : readAl.get? idxC = readAl'.get? idxC) :
    findStepDel readAl w st idxC = findStepDel readAl' w st idxC := by
  unfold findStepDel
  rw [h1]

/-- One scan column depends on the two aligned strings only through their
characters at that column. -/
theorem findStep_congr (readAl refAl readAl' refAl' : List Char) (w : List Int)
    (st : VState) (idxC : Nat)
    (h1 : readAl.get? idxC = readAl'.get? idxC)
    (h2 : refAl.get? idxC = refAl'.get? idxC) :
    findStep readAl refAl w st idxC = findStep readAl' refAl' w st idxC := by
  unfold findStep
  rw [findStepRef_congr readAl refAl readAl' refAl' w st idxC h1 h2,
    findStepDel_congr readAl readAl' w _ idxC h1]

theorem foldl_findStep_congr (readAl refAl readAl' refAl' : List Char)
    (w : List Int) (L : List Nat)
    (h : ∀ a ∈ L, readAl.get? a = readAl'.get? a ∧ refAl.get? a = refAl'.get? a) :
    ∀ st, L.foldl (findStep readAl refAl w) st
      = L.foldl (findStep readAl' refAl' w) st := by
  induction L with
  | nil => intro st; rfl
  | cons a L ih =>
    intro st
    simp only [List.foldl_cons]
    rw [findStep_congr readAl refAl readAl' refAl' w st a
      (h a (List.mem_cons_self a L)).1 (h a (List.mem_cons_self a L)).2]
    exact ih (fun b hb => h b (List.mem_cons_of_mem _ hb)) _
  
/-- Over any run of reference-gap columns the five insertion lists are
untouched. -/
theorem gap_cols_ins_lists (readAl refAl : List Char) (w : List Int)
    (L : List Nat) (h : ∀ a ∈ L, refAl.get? a = some '-') (st0 : VState) :
    (L.foldl (findStep readAl refAl w) st0).allInsertionPositions
      = st0.allInsertionPositions ∧
    (L.foldl (findStep readAl refAl w) st0).allInsertionLeftPositions
      = st0.allInsertionLeftPositions ∧
    (L.foldl (findStep readAl refAl w) st0).insertionPositions
      = st0.insertionPositions ∧
    (L.foldl (findStep readAl refAl w) st0).insertionCoordinates
      = st0.insertionCoordinates ∧
    (L.foldl (findStep readAl refAl w) st0).insertionSizes = st0.insertionSizes := by
  refine foldl_induction (findStep readAl refAl w)
    (fun st => st.allInsertionPositions = st0.allInsertionPositions ∧
      st.allInsertionLeftPositions = st0.allInsertionLeftPositions ∧
      st.insertionPositions = st0.insertionPositions ∧
      st.insertionCoordinates = st0.insertionCoordinates ∧
      st.insertionSizes = st0.insertionSizes)
    L st0 ⟨rfl, rfl, rfl, rfl, rfl⟩ ?_
  intro st a ha hP
  obtain ⟨p1, p2, p3, p4, p5⟩ := hP
  unfold findStep
  obtain ⟨_, _, _, _, d5, d6, d7, d8, d9, _, _⟩ :=
    findStepDel_ins_fields readAl w (findStepRef readAl refAl w st a) a
  obtain ⟨_, _, _, g4, g5, g6, g7, g8, _, _⟩ :=
    findStepRef_gap_spec readAl refAl w st a (h a ha)
  exact ⟨by rw [d5, g4, p1], by rw [d6, g5, p2], by rw [d7, g6, p3],
    by rw [d8, g7, p4], by rw [d9, g8, p5]⟩



/-- Claim C10 (confirmed): a run of reference-gap columns that precedes the
first non-gap reference character, or that reaches the end of the aligned
strings, contributes nothing to the six insertion outputs of
`findIndelsSubstitutions`: cutting the aligned pair at the run boundary
(dropping an all-gap prefix of the reference, or truncating before an
all-gap suffix) leaves `allInsertionPositions`, `allInsertionLeftPositions`,
`insertionPositions`, `insertionCoordinates`, `insertionSizes` and
`insertionN` unchanged, for every window. -/
theorem edge_insertion_runs_spec (readAl refAl : List Char) (w : List Int)
    (k : Nat) (hk : k ≤ refAl.length) :
    ((∀ t, t < k → refAl.get? t = some '-') →
      insOutputs (findIndelsSubstitutions readAl refAl w)
        = insOutputs (findIndelsSubstitutions (readAl.drop k) (refAl.drop k) w)) ∧
    ((∀ t, k ≤ t → t < refAl.length → refAl.get? t = some '-') →
      insOutputs (findIndelsSubstitutions readAl refAl w)
        = insOutputs (findIndelsSubstitutions (readAl.take k) (refAl.take k) w)) := by
  have hsplit : List.range refAl.length
      = List.range' 0 k ++ List.range' k (refAl.length - k) := by
    have h2 := List.range'_append_1 0 k (refAl.length - k)
    simp only [Nat.zero_add] at h2
    rw [show refAl.length - k + k = refAl.length by omega] at h2
    rw [List.range_eq_range', ← h2]
  constructor
  · intro h
    rw [findIndels_insOutputs, findIndels_insOutputs]
    rw [show (refAl.drop k).length = refAl.length - k from List.length_drop k refAl]
    rw [hsplit, List.foldl_append]
    obtain ⟨p1, p2, p3, p4, p5, p6, p7⟩ := lead_prefix_state readAl refAl w k h
    have hsim0 : insSim
        ((List.range' 0 k).foldl (findStep readAl refAl w) VState.init)
        VState.init := ⟨p1, p2, p3, p4, p5, p6, p7, Or.inr ⟨p1, p2⟩⟩
    have hc : ∀ t, t < refAl.length - k →
        refAl.get? (k + t) = (refAl.drop k).get? (0 + t) := by
      intro t ht
      simp [List.get?_eq_getElem?, List.getElem?_drop]
    have hsim := insSim_fold readAl refAl (readAl.drop k) (refAl.drop k) w
      (refAl.length - k) k 0 hc _ _ hsim0
    rw [List.range_eq_range']
    exact insOutputsState_eq_of_insSim hsim
  · intro h
    rw [findIndels_insOutputs, findIndels_insOutputs]
    rw [show (refAl.take k).length = k by simp [hk]]
    rw [hsplit, List.foldl_append]
    have hcong : (List.range k).foldl
        (findStep (readAl.take k) (refAl.take k) w) VState.init
        = (List.range' 0 k).foldl (findStep readAl refAl w) VState.init := by
      rw [List.range_eq_range']
      exact (foldl_findStep_congr readAl refAl (readAl.take k) (refAl.take k) w
        (List.range' 0 k) (fun a ha => by
          have hlt : a < k := by simpa using (mem_range'_one ha).2
          exact ⟨by simp [List.get?_eq_getElem?, List.getElem?_take_of_lt hlt],
            by simp [List.get?_eq_getElem?, List.getElem?_take_of_lt hlt]⟩)
        VState.init).symm
    rw [hcong]
    obtain ⟨q1, q2, q3, q4, q5⟩ := gap_cols_ins_lists readAl refAl w
      (List.range' k (refAl.length - k)) (fun a ha => by
        obtain ⟨ha1, ha2⟩ := mem_range'_one ha
        exact h a ha1 (by omega)) _
    unfold insOutputsState
    rw [q1, q2, q3, q4, q5]

/-- Witness for C10: a concrete leading run (column 0 of `-A-` against read
`TAC`, cut at 1) and a concrete trailing run (column 2 of `TA-`, cut at 2)
leave the insertion outputs unchanged. -/
theorem edge_insertion_runs_spec_witness :
    insOutputs (findIndelsSubstitutions ['T', 'A', 'C'] ['-', 'A', '-'] [0])
      = insOutputs (findIndelsSubstitutions (['T', 'A', 'C'].drop 1)
          (['-', 'A', '-'].drop 1) [0]) ∧
    insOutputs (findIndelsSubstitutions ['T', 'A', 'C'] ['T', 'A', '-'] [0, 1])
      = insOutputs (findIndelsSubstitutions (['T', 'A', 'C'].take 2)
          (['T', 'A', '-'].take 2) [0, 1]) :=
  ⟨(edge_insertion_runs_spec ['T', 'A', 'C'] ['-', 'A', '-'] [0] 1
      (by decide)).1 (fun t ht => by
        interval_cases t
        rfl),
   (edge_insertion_runs_spec ['T', 'A', 'C'] ['T', 'A', '-'] [0, 1] 2
      (by decide)).2 (fun t h1 h2 => by
        have ht : t = 2 := by
          simp only [List.length_cons, List.length_nil] at h2
          omega
        subst ht
        rfl)⟩



theorem gapCount_succ_gap (s : List Char) (t : Nat) (h : s.get? t = some '-') :
    gapCount s (t + 1) = gapCount s t + 1 := by
  unfold gapCount
  rw [List.range_succ, List.filter_append, List.length_append]
  rw [List.get?_eq_getElem?] at h
  simp [List.filter_singleton, h]

theorem gapCount_succ_base (s : List Char) (t : Nat) (h : s.get? t ≠ some '-') :
    gapCount s (t + 1) = gapCount s t := by
  unfold gapCount
  rw [List.range_succ, List.filter_append, List.length_append]
  rw [List.get?_eq_getElem?] at h
  simp [List.filter_singleton, h]

theorem baseCount_succ_base (s : List Char) (t : Nat) (h : s.get? t ≠ some '-') :
    baseCount s (t + 1) = baseCount s t + 1 := by
  unfold baseCount
  rw [List.range_succ, List.filter_append, List.length_append]
  rw [List.get?_eq_getElem?] at h
  simp [List.filter_singleton, h]

theorem baseCount_succ_gap (s : List Char) (t : Nat) (h : s.get? t = some '-') :
    baseCount s (t + 1) = baseCount s t := by
  unfold baseCount
  rw [List.range_succ, List.filter_append, List.length_append]
  rw [List.get?_eq_getElem?] at h
  simp [List.filter_singleton, h]

theorem substCount_succ_yes (readAl refAl : List Char) (t : Nat)
    (h : refAl.get? t ≠ some '-' ∧ readAl.get? t ≠ some '-' ∧
      refAl.get? t ≠ readAl.get? t ∧ readAl.get? t ≠ some 'N') :
    substCount readAl refAl (t + 1) = substCount readAl refAl t + 1 := by
  unfold substCount
  rw [List.range_succ, List.filter_append, List.length_append]
  obtain ⟨h1, h2, h3, h4⟩ := h
  rw [List.get?_eq_getElem?] at h1 h2 h3 h4
  rw [List.get?_eq_getElem?] at h3
  simp [List.filter_singleton, h1, h2, h3, h4]

theorem substCount_succ_no (readAl refAl : List Char) (t : Nat)
    (h : ¬(refAl.get? t ≠ some '-' ∧ readAl.get? t ≠ some '-' ∧
      refAl.get? t ≠ readAl.get? t ∧ readAl.get? t ≠ some 'N')) :
    substCount readAl refAl (t + 1) = substCount readAl refAl t := by
  unfold substCount
  rw [List.range_succ, List.filter_append, List.length_append]
  simp only [List.get?_eq_getElem?] at h
  simp [List.filter_singleton, h]

theorem baseCount_le_of_le (s : List Char) {t u : Nat} (h : t ≤ u) :
    baseCount s t ≤ baseCount s u := by
  induction u with
  | zero =>
    have ht : t = 0 := by omega
    subst ht
    exact le_rfl
  | succ n ih =>
    rcases Nat.lt_or_ge t (n + 1) with h2 | h2
    · have h3 := ih (by omega)
      by_cases hc : s.get? n = some '-'
      · rw [baseCount_succ_gap s n hc]
        omega
      · rw [baseCount_succ_base s n hc]
        omega
    · have ht : t = n + 1 := by omega
      subst ht
      exact le_rfl

theorem one_le_baseCount (s : List Char) {t : Nat} (h : 1 ≤ t)
    (h0 : s.get? 0 ≠ some '-') : 1 ≤ baseCount s t := by
  have h1 : baseCount s 1 = 1 := by
    rw [show (1 : Nat) = 0 + 1 from rfl, baseCount_succ_base s 0 h0]
    rfl
  have := baseCount_le_of_le s h
  omega

theorem getD_concat (l : List Int) (a d : Int) : (l ++ [a]).getD l.length d = a := by
  simp [List.getD_eq_getElem?_getD, List.getElem?_concat_length]

theorem self_mem_intRange (a b : Int) (h : a < b) : a ∈ intRange a b := by
  simp [intRange]
  exact ⟨0, by omega, by simp⟩

theorem inRun_succ (refAl : List Char) (t : Nat) :
    inRun refAl (t + 1) ↔ refAl.get? t = some '-' := by
  unfold inRun
  simp

theorem inDel_succ (readAl : List Char) (t : Nat) :
    inDel readAl (t + 1) ↔ readAl.get? t = some '-' := by
  unfold inDel
  simp

theorem gapCount_eq_count (s : List Char) : gapCount s s.length = s.count '-' := by
  induction s using List.reverseRecOn with
  | nil => rfl
  | append_singleton s c ih =>
    rw [List.length_append, List.length_singleton]
    have h1 : gapCount (s ++ [c]) s.length = gapCount s s.length := by
      unfold gapCount
      congr 1
      refine List.filter_congr ?_
      intro k hk
      have hk' : k < s.length := List.mem_range.mp hk
      rw [List.get?_eq_getElem?, List.get?_eq_getElem?,
        List.getElem?_append_left hk']
    have h2 : (s ++ [c]).get? s.length = some c := by
      rw [List.get?_eq_getElem?, List.getElem?_concat_length]
    rw [List.count_append]
    by_cases hc : c = '-'
    · subst hc
      rw [gapCount_succ_gap (s ++ ['-']) s.length h2, h1, ih]
      simp
    · rw [gapCount_succ_base (s ++ [c]) s.length (by rw [h2]; simpa using hc),
        h1, ih]
      simp [List.count_singleton', hc]



theorem findStepDel_open (readAl : List Char) (w : List Int) (st1 : VState)
    (idxC : Nat) (hr : readAl.get? idxC = some '-') (hd : st1.startDeletion = -1) :
    findStepDel readAl w st1 idxC =
      { st1 with startDeletion :=
          if idxC - 1 > 0 then st1.refPositions.getD idxC 0 else 0 } := by
  unfold findStepDel
  rw [if_pos ⟨hr, hd⟩]

theorem findStepDel_close (readAl : List Char) (w : List Int) (st1 : VState)
    (idxC : Nat) (hr : readAl.get? idxC ≠ some '-')
    (hd : st1.startDeletion ≠ -1) :
    findStepDel readAl w st1 idxC
      = closeDeletion w st1 (st1.refPositions.getD idxC 0) := by
  unfold findStepDel
  rw [if_neg (fun hx => hr hx.1), if_pos ⟨hr, hd⟩]

theorem findStepDel_id (readAl : List Char) (w : List Int) (st1 : VState)
    (idxC : Nat)
    (h : (readAl.get? idxC = some '-') ↔ st1.startDeletion ≠ -1) :
    findStepDel readAl w st1 idxC = st1 := by
  unfold findStepDel
  by_cases hr : readAl.get? idxC = some '-'
  · rw [if_neg (fun hx => (h.mp hr) hx.2), if_neg (fun hx => hx.1 hr)]
  · have hd : st1.startDeletion = -1 := by
      by_contra hsd
      exact hr (h.mpr hsd)
    rw [if_neg (fun hx => hr hx.1), if_neg (fun hx => hx.2 hd)]

/-- Insertion-side invariant preservation for one `findStepRef` step, under a
window that contains every reachable reference coordinate and a non-gap
reference start. -/
theorem insInv_step (readAl refAl : List Char) (w : List Int)
    (h0r : refAl.get? 0 ≠ some '-')
    (hw : ∀ x : Int, 0 ≤ x → x < (baseCount refAl refAl.length : Int) → x ∈ w)
    (t : Nat) (ht : t < refAl.length) (st : VState)
    (hidx : st.idx = baseCount refAl t)
    (hrun : inRun refAl t → st.startInsertion = (st.idx : Int) - 1 ∧
      1 ≤ st.idx ∧
      st.insertionSizes.sum + st.currentInsertionSize = gapCount refAl t)
    (hnrun : ¬inRun refAl t → st.startInsertion = -1 ∧
      st.currentInsertionSize = 0 ∧
      st.insertionSizes.sum = gapCount refAl t) :
    (findStepRef readAl refAl w st t).idx = baseCount refAl (t + 1) ∧
    (inRun refAl (t + 1) →
      (findStepRef readAl refAl w st t).startInsertion
        = ((findStepRef readAl refAl w st t).idx : Int) - 1 ∧
      1 ≤ (findStepRef readAl refAl w st t).idx ∧
      (findStepRef readAl refAl w st t).insertionSizes.sum
        + (findStepRef readAl refAl w st t).currentInsertionSize
        = gapCount refAl (t + 1)) ∧
    (¬inRun refAl (t + 1) →
      (findStepRef readAl refAl w st t).startInsertion = -1 ∧
      (findStepRef readAl refAl w st t).currentInsertionSize = 0 ∧
      (findStepRef readAl refAl w st t).insertionSizes.sum
        = gapCount refAl (t + 1)) := by
  by_cases hgc : refAl.get? t = some '-'
  · -- gap column: the run opens or grows
    obtain ⟨g1, g2, g3, _, _, _, _, g8, _, _⟩ :=
      findStepRef_gap_spec readAl refAl w st t hgc
    have hbc : baseCount refAl (t + 1) = baseCount refAl t :=
      baseCount_succ_gap refAl t hgc
    have hgr : gapCount refAl (t + 1) = gapCount refAl t + 1 :=
      gapCount_succ_gap refAl t hgc
    have hnext : inRun refAl (t + 1) := (inRun_succ refAl t).mpr hgc
    refine ⟨by rw [g1, hidx, hbc], fun _ => ?_, fun hn => absurd hnext hn⟩
    by_cases hrun0 : inRun refAl t
    · obtain ⟨r1, r2, r3⟩ := hrun hrun0
      have hne : st.startInsertion ≠ -1 := by
        rw [r1]
        omega
      rw [g2, if_neg (fun hx => hne hx.2)]
      exact ⟨by rw [r1, g1], by rw [g1]; exact r2, by rw [g8, g3, hgr]; omega⟩
    · obtain ⟨r1, r2, r3⟩ := hnrun hrun0
      have hpos : 1 ≤ st.idx := by
        have ht1 : 1 ≤ t := by
          rcases Nat.eq_zero_or_pos t with h0 | h0
          · subst h0
            exact absurd hgc h0r
          · exact h0
        rw [hidx]
        exact one_le_baseCount refAl ht1 h0r
      rw [g2, if_pos ⟨by omega, r1⟩]
      exact ⟨by rw [g1], by rw [g1]; exact hpos, by rw [g8, g3, r2, hgr]; omega⟩
  · -- base column: a run, if open, is closed and published
    obtain ⟨b1, b2, b3⟩ := findStepRef_base_spec readAl refAl w st t hgc
    have hbc : baseCount refAl (t + 1) = baseCount refAl t + 1 :=
      baseCount_succ_base refAl t hgc
    have hgr : gapCount refAl (t + 1) = gapCount refAl t :=
      gapCount_succ_base refAl t hgc
    have hnonext : ¬inRun refAl (t + 1) := fun hx => hgc ((inRun_succ refAl t).mp hx)
    refine ⟨by rw [b1, hidx, hbc], fun hx => absurd hx hnonext, fun _ => ?_⟩
    refine ⟨b2, b3, ?_⟩
    by_cases hrun0 : inRun refAl t
    · obtain ⟨r1, r2, r3⟩ := hrun hrun0
      have hne : st.startInsertion ≠ -1 := by
        rw [r1]
        omega
      obtain ⟨_, _, hcl, _⟩ :=
        findStepRef_base_ins_close readAl refAl w st t hgc hne
      have hlt : (st.idx : Int) < (baseCount refAl refAl.length : Int) := by
        have hmono : baseCount refAl (t + 1) ≤ baseCount refAl refAl.length :=
          baseCount_le_of_le refAl (by omega)
        rw [hidx]
        omega
      have hmem : st.startInsertion ∈ w ∧ (st.idx : Int) ∈ w := by
        constructor
        · refine hw st.startInsertion (by rw [r1]; omega) ?_
          rw [r1]
          omega
        · exact hw (st.idx : Int) (by positivity) hlt
      obtain ⟨_, _, hsz⟩ := hcl hmem
      rw [hsz, List.sum_append, hgr]
      simpa using r3
    · obtain ⟨r1, r2, r3⟩ := hnrun hrun0
      obtain ⟨_, _, _, _, hsz⟩ :=
        findStepRef_base_ins_none readAl refAl w st t hgc r1
      rw [hsz, hgr]
      exact r3



theorem getD_concat_at (l : List Int) (a d : Int) (t : Nat) (h : l.length = t) :
    (l ++ [a]).getD t d = a := by
  subst h
  exact getD_concat l a d

theorem scanInv_init (readAl refAl : List Char) :
    ScanInv readAl refAl 0 VState.init := by
  refine ⟨rfl, rfl, fun h => absurd h.1 (by omega), fun _ => ⟨rfl, rfl, rfl⟩,
    fun h => absurd h.1 (by omega), fun _ => ⟨rfl, rfl⟩, rfl⟩

theorem scanInv_step (readAl refAl : List Char) (w : List Int)
    (h0r : refAl.get? 0 ≠ some '-')
    (h0d : readAl.get? 0 ≠ some '-') (h1d : readAl.get? 1 ≠ some '-')
    (hdg : ∀ u, ¬(readAl.get? u = some '-' ∧ refAl.get? u = some '-'))
    (hadj : ∀ u, ¬(readAl.get? u = some '-' ∧ refAl.get? (u + 1) = some '-'))
    (hw : ∀ x : Int, 0 ≤ x → x < (baseCount refAl refAl.length : Int) → x ∈ w)
    (t : Nat) (ht : t < refAl.length) (st : VState)
    (hI : ScanInv readAl refAl t st) :
    ScanInv readAl refAl (t + 1) (findStep readAl refAl w st t) := by
  obtain ⟨i1, i2, i3, i4, i5, i6, i7⟩ := hI
  have hsd1 := findStepRef_startDeletion readAl refAl w st t
  obtain ⟨dl1, dl2, dl3, dl4, dl5⟩ := findStepRef_del_fields readAl refAl w st t
  have hrp1 := findStepRef_refPositions readAl refAl w st t
  have hsubs1 := findStepRef_subs readAl refAl w st t
  obtain ⟨j1, j2, j3⟩ := insInv_step readAl refAl w h0r hw t ht st i2 i3 i4
  set st1 := findStepRef readAl refAl w st t with hst1def
  have hlen1 : st1.refPositions.length = t + 1 := by
    rw [hrp1, List.length_append, i1]
    rfl
  have hsublen : st1.substitutionPositions.length
      = substCount readAl refAl (t + 1) := by
    by_cases hc : refAl.get? t ≠ some '-' ∧ readAl.get? t ≠ some '-' ∧
        refAl.get? t ≠ readAl.get? t ∧ readAl.get? t ≠ some 'N'
    · have hwidx : (st.idx : Int) ∈ w := by
        refine hw _ (by positivity) ?_
        have hmono : baseCount refAl (t + 1) ≤ baseCount refAl refAl.length :=
          baseCount_le_of_le refAl (by omega)
        have hb := baseCount_succ_base refAl t hc.1
        rw [i2]
        exact_mod_cast (by omega :
          baseCount refAl t < baseCount refAl refAl.length)
      rw [hsubs1, if_pos ⟨hc.1, ⟨hc.2.2.1, hc.2.1, hc.2.2.2⟩, hwidx⟩,
        List.length_append, i7, substCount_succ_yes readAl refAl t hc]
      rfl
    · have hnc : ¬(refAl.get? t ≠ some '-' ∧
          (refAl.get? t ≠ readAl.get? t ∧ readAl.get? t ≠ some '-' ∧
            readAl.get? t ≠ some 'N') ∧ (st.idx : Int) ∈ w) := by
        intro hx
        exact hc ⟨hx.1, hx.2.1.2.1, hx.2.1.1, hx.2.1.2.2⟩
      rw [hsubs1, if_neg hnc, List.append_nil, i7,
        substCount_succ_no readAl refAl t hc]
  unfold findStep
  rw [← hst1def]
  by_cases hrc : readAl.get? t = some '-'
  · have hgc : refAl.get? t ≠ some '-' := fun hx => hdg t ⟨hrc, hx⟩
    have hbc : baseCount refAl (t + 1) = baseCount refAl t + 1 :=
      baseCount_succ_base refAl t hgc
    have hidx1 : st1.idx = st.idx + 1 := by
      rw [j1, hbc, i2]
    have hgd : gapCount readAl (t + 1) = gapCount readAl t + 1 :=
      gapCount_succ_gap readAl t hrc
    have hnext : inDel readAl (t + 1) := (inDel_succ readAl t).mpr hrc
    by_cases hdel : inDel readAl t
    · -- a deletion is already open: the column only advances the coordinate
      obtain ⟨v1, v2, v3⟩ := i5 hdel
      have hne : st1.startDeletion ≠ -1 := by
        rw [hsd1]
        intro hx
        rw [hx] at v1
        omega
      rw [findStepDel_id readAl w st1 t (iff_of_true hrc hne)]
      refine ⟨hlen1, j1, j2, j3, fun _ => ?_, fun hn => absurd hnext hn, hsublen⟩
      refine ⟨by rw [hsd1]; exact v1, ?_, ?_⟩
      · rw [hsd1, hidx1]
        push_cast
        omega
      · rw [hsd1, dl5, hgd, hidx1]
        push_cast
        omega
    · -- the column opens a deletion
      obtain ⟨v1, v2⟩ := i6 hdel
      have hd1 : st1.startDeletion = -1 := by rw [hsd1, v1]
      rw [findStepDel_open readAl w st1 t hrc hd1]
      have ht2 : 2 ≤ t := by
        by_contra hlt
        push_neg at hlt
        interval_cases t
        · exact h0d hrc
        · exact h1d hrc
      have hv : st1.refPositions.getD t 0 = (st.idx : Int) := by
        rw [hrp1, getD_concat_at _ _ _ t i1, if_pos hgc]
      rw [if_pos (show t - 1 > 0 by omega), hv]
      refine ⟨hlen1, j1, j2, j3, fun _ => ?_, fun hn => absurd hnext hn, hsublen⟩
      dsimp only
      refine ⟨by positivity, ?_, ?_⟩
      · rw [hidx1]
        push_cast
        omega
      · rw [dl5, hgd, hidx1]
        push_cast
        omega
  · have hnonext : ¬inDel readAl (t + 1) :=
      fun hx => hrc ((inDel_succ readAl t).mp hx)
    have hgd : gapCount readAl (t + 1) = gapCount readAl t :=
      gapCount_succ_base readAl t hrc
    by_cases hdel : inDel readAl t
    · -- the column closes the open deletion
      obtain ⟨v1, v2, v3⟩ := i5 hdel
      obtain ⟨hdt1, hdt2⟩ := hdel
      have hgc : refAl.get? t ≠ some '-' := by
        intro hx
        refine hadj (t - 1) ⟨hdt2, ?_⟩
        rw [show t - 1 + 1 = t by omega]
        exact hx
      have hbc : baseCount refAl (t + 1) = baseCount refAl t + 1 :=
        baseCount_succ_base refAl t hgc
      have hidx1 : st1.idx = st.idx + 1 := by
        rw [j1, hbc, i2]
      have hne : st1.startDeletion ≠ -1 := by
        rw [hsd1]
        intro hx
        rw [hx] at v1
        omega
      rw [findStepDel_close readAl w st1 t hrc hne]
      have hv : st1.refPositions.getD t 0 = (st.idx : Int) := by
        rw [hrp1, getD_concat_at _ _ _ t i1, if_pos hgc]
      rw [hv]
      obtain ⟨c1, c2, c3, c4, c5, c6, c7, c8, c9, c10, c11, _, _⟩ :=
        closeDeletion_other w st1 (st.idx : Int)
      obtain ⟨e1, _, _, hwin, _⟩ := closeDeletion_spec w st1 (st.idx : Int)
      have hexists : ∃ i ∈ intRange st1.startDeletion (st.idx : Int), i ∈ w := by
        refine ⟨st1.startDeletion,
          self_mem_intRange _ _ (by rw [hsd1]; exact v2), ?_⟩
        refine hw _ (by rw [hsd1]; exact v1) ?_
        have hmono : baseCount refAl (t + 1) ≤ baseCount refAl refAl.length :=
          baseCount_le_of_le refAl (by omega)
        have hle : (st.idx : Int) ≤ (baseCount refAl refAl.length : Int) := by
          rw [i2]
          exact_mod_cast (by omega : baseCount refAl t ≤ baseCount refAl refAl.length)
        rw [hsd1]
        omega
      obtain ⟨_, _, hsz⟩ := hwin hexists
      refine ⟨by rw [c4]; exact hlen1, by rw [c1]; exact j1, ?_, ?_,
        fun hx => absurd hx hnonext, fun _ => ⟨e1, ?_⟩, by rw [c11]; exact hsublen⟩
      · intro hx
        obtain ⟨k1, k2, k3⟩ := j2 hx
        exact ⟨by rw [c2, c1]; exact k1, by rw [c1]; exact k2,
          by rw [c9, c3]; exact k3⟩
      · intro hx
        obtain ⟨k1, k2, k3⟩ := j3 hx
        exact ⟨by rw [c2]; exact k1, by rw [c3]; exact k2, by rw [c9]; exact k3⟩
      · rw [hsz, List.sum_append, hgd, hsd1, dl5]
        simp only [List.sum_cons, List.sum_nil]
        omega
    · -- no deletion activity on this column
      obtain ⟨v1, v2⟩ := i6 hdel
      have hd1 : st1.startDeletion = -1 := by rw [hsd1, v1]
      rw [findStepDel_id readAl w st1 t
        (iff_of_false hrc (fun hx => hx hd1))]
      refine ⟨hlen1, j1, j2, j3, fun hx => absurd hx hnonext,
        fun _ => ⟨hd1, ?_⟩, hsublen⟩
      rw [dl5, hgd]
      exact v2



theorem get?_none_of_ge (s : List Char) (u : Nat) (h : s.length ≤ u) :
    s.get? u = none := by
  rw [List.get?_eq_getElem?]
  exact List.getElem?_eq_none h

/-- Claim C6 (corrected): the three totals of `findIndelsSubstitutions` match
the column counts only under extra conditions the claim omits: the window
must contain every reference coordinate, the first two and the last aligned
columns must be gap-free (the `idxC - 1 > 0` start quirk and the edge-run
discards), and no read-gap column may immediately precede a reference-gap
column (otherwise a deletion closes against a negative placeholder
coordinate). Under those conditions the insertion sizes sum to the number of
reference-gap columns, the deletion sizes sum to the number of read-gap
columns, and the substitution count equals the number of columns with two
distinct non-gap characters whose read character is not `N`. -/
theorem findIndels_totals_spec (readAl refAl : List Char) (w : List Int)
    (hlen : readAl.length = refAl.length)
    (hdg : ∀ u, ¬(readAl.get? u = some '-' ∧ refAl.get? u = some '-'))
    (hadj : ∀ u, ¬(readAl.get? u = some '-' ∧ refAl.get? (u + 1) = some '-'))
    (h0r : refAl.get? 0 ≠ some '-')
    (h0d : readAl.get? 0 ≠ some '-') (h1d : readAl.get? 1 ≠ some '-')
    (hlr : refAl.get? (refAl.length - 1) ≠ some '-')
    (hld : readAl.get? (refAl.length - 1) ≠ some '-')
    (hw : ∀ x : Int, 0 ≤ x → x < (baseCount refAl refAl.length : Int) → x ∈ w) :
    (findIndelsSubstitutions readAl refAl w).insertionSizes.sum
      = refAl.count '-' ∧
    (findIndelsSubstitutions readAl refAl w).insertionN = refAl.count '-' ∧
    (findIndelsSubstitutions readAl refAl w).deletionSizes.sum
      = (readAl.count '-' : Int) ∧
    (findIndelsSubstitutions readAl refAl w).deletionN
      = (readAl.count '-' : Int) ∧
    (findIndelsSubstitutions readAl refAl w).substitutionN
      = substCount readAl refAl refAl.length := by
  have key : ∀ n, n ≤ refAl.length →
      ScanInv readAl refAl n
        ((List.range n).foldl (findStep readAl refAl w) VState.init) := by
    intro n
    induction n with
    | zero => intro _; simpa using scanInv_init readAl refAl
    | succ n ih =>
      intro hn
      rw [List.range_succ, List.foldl_append, List.foldl_cons, List.foldl_nil]
      exact scanInv_step readAl refAl w h0r h0d h1d hdg hadj hw n (by omega) _
        (ih (by omega))
  obtain ⟨i1, i2, i3, i4, i5, i6, i7⟩ := key refAl.length le_rfl
  have hnr : ¬inRun refAl refAl.length := fun hx => hlr hx.2
  have hnd : ¬inDel readAl refAl.length := fun hx => hld hx.2
  obtain ⟨s1, s2, s3⟩ := i4 hnr
  obtain ⟨d1, d2⟩ := i6 hnd
  have hcount : gapCount refAl refAl.length = refAl.count '-' :=
    gapCount_eq_count refAl
  have hcountd : gapCount readAl refAl.length = readAl.count '-' := by
    rw [← hlen]
    exact gapCount_eq_count readAl
  have hneg : ¬((List.range refAl.length).foldl (findStep readAl refAl w)
      VState.init).startDeletion ≠ -1 := fun hx => hx d1
  refine ⟨?_, ?_, ?_, ?_, ?_⟩ <;>
    · unfold findIndelsSubstitutions
      dsimp only
      rw [if_neg hneg]
      first
        | (rw [s3]; exact hcount)
        | (rw [d2, hcountd])
        | (rw [i7])

/-- Witness for C6: on read `TC-GA` against reference `A-TGA` with window
`[0,1,2,3]` (all four reference coordinates) the insertion sizes sum to the
single reference gap, the deletion sizes to the single read gap, and the
substitution count to the single mismatching base column. -/
theorem findIndels_totals_spec_witness :
    (findIndelsSubstitutions ['T', 'C', '-', 'G', 'A'] ['A', '-', 'T', 'G', 'A']
      [0, 1, 2, 3]).insertionSizes.sum
      = (['A', '-', 'T', 'G', 'A'] : List Char).count '-' ∧
    (findIndelsSubstitutions ['T', 'C', '-', 'G', 'A'] ['A', '-', 'T', 'G', 'A']
      [0, 1, 2, 3]).insertionN
      = (['A', '-', 'T', 'G', 'A'] : List Char).count '-' ∧
    (findIndelsSubstitutions ['T', 'C', '-', 'G', 'A'] ['A', '-', 'T', 'G', 'A']
      [0, 1, 2, 3]).deletionSizes.sum
      = ((['T', 'C', '-', 'G', 'A'] : List Char).count '-' : Int) ∧
    (findIndelsSubstitutions ['T', 'C', '-', 'G', 'A'] ['A', '-', 'T', 'G', 'A']
      [0, 1, 2, 3]).deletionN
      = ((['T', 'C', '-', 'G', 'A'] : List Char).count '-' : Int) ∧
    (findIndelsSubstitutions ['T', 'C', '-', 'G', 'A'] ['A', '-', 'T', 'G', 'A']
      [0, 1, 2, 3]).substitutionN
      = substCount ['T', 'C', '-', 'G', 'A'] ['A', '-', 'T', 'G', 'A']
          (['A', '-', 'T', 'G', 'A'] : List Char).length :=
  findIndels_totals_spec ['T', 'C', '-', 'G', 'A'] ['A', '-', 'T', 'G', 'A']
    [0, 1, 2, 3] rfl
    (fun u => by
      rintro ⟨ha, hb⟩
      rcases u with _ | _ | _ | _ | _ | u
      · exact absurd ha (by decide)
      · exact absurd ha (by decide)
      · exact absurd hb (by decide)
      · exact absurd ha (by decide)
      · exact absurd ha (by decide)
      · rw [get?_none_of_ge _ _ (by simp)] at ha
        cases ha)
    (fun u => by
      rintro ⟨ha, hb⟩
      rcases u with _ | _ | _ | _ | _ | u
      · exact absurd ha (by decide)
      · exact absurd ha (by decide)
      · exact absurd hb (by decide)
      · exact absurd ha (by decide)
      · exact absurd ha (by decide)
      · rw [get?_none_of_ge _ _ (by simp)] at ha
        cases ha)
    (by decide) (by decide) (by decide) (by decide) (by decide)
    (fun x h1 h2 => by
      rw [show ((baseCount ['A', '-', 'T', 'G', 'A']
          (['A', '-', 'T', 'G', 'A'] : List Char).length : Nat) : Int) = 4
        from by decide] at h2
      simp only [List.mem_cons, List.not_mem_nil, or_false]
      omega)



/-- Claim C6 (counterexample): on aligned read `CA` against reference `-A`
(equal lengths, no gap-in-both column) with window `[0]` covering every
reference coordinate, the single reference-gap column is a leading insertion
run that the scan never records: the insertion sizes sum to 0, not 1. -/
theorem findIndels_totals_counterexample :
    (findIndelsSubstitutions ['C', 'A'] ['-', 'A'] [0]).insertionSizes.sum = 0 ∧
    (findIndelsSubstitutions ['C', 'A'] ['-', 'A'] [0]).insertionN = 0 ∧
    (['-', 'A'] : List Char).count '-' = 1 := by decide

end VizAlign
